import Mathlib

/-! libzahl: a shallow embedding of `zahl.h`, `zahl-internals.h` and `zgcd.c`.

A `z_t` is a record `(sign, used, alloced, chars)`.  The limb buffer that `chars`
points to is owned by exactly one record, so the embedding stores the buffer by
value inside the record (`none` is the null pointer).  Limbs are natural numbers
below `2^64`; `size_t` arithmetic is taken modulo `2^64`.

Reading a limb outside the buffer, or calling a compiler builtin outside its
domain, is undefined behaviour in C and is reported as `Result.undefined`.
Loops whose termination depends on the data take an explicit fuel argument and
report `Result.timeout` when it runs out.
-/

namespace Libzahl

/-! ## Outcomes of a C computation -/

/-- Outcome of running a piece of C code. -/
inductive Result (α : Type) where
  | ok (x : α)
  | undefined
  | timeout
deriving DecidableEq, Repr

namespace Result

/-- Sequencing of two computations. -/
def bind {α β : Type} (r : Result α) (f : α → Result β) : Result β :=
  match r with
  | ok x => f x
  | undefined => undefined
  | timeout => timeout

/-- Apply a function to the value of a successful computation. -/
def map {α β : Type} (f : α → β) (r : Result α) : Result β :=
  r.bind (fun x => ok (f x))

instance : Monad Result where
  pure := ok
  bind := bind

end Result

/-! ## The data model -/

/-- The value of `8 * sizeof(zahl_char_t)`, also `ZAHL_BITS_PER_CHAR`. -/
def ZAHL_BITS_PER_CHAR : Nat := 64

/-- One more than the largest `zahl_char_t` (`ZAHL_CHAR_MAX + 1`). -/
def LIMB : Nat := 2 ^ 64

/-- The largest `size_t`. -/
def SIZE_MAX : Nat := 2 ^ 64 - 1

/-- Wrap a natural number to a `size_t`. -/
def size_t (n : Nat) : Nat := n % 2 ^ 64

/-- The record `struct zahl`; `chars` holds the pointed-to limb buffer, `none` is `NULL`. -/
structure Zahl where
  sign : Int
  used : Nat
  alloced : Nat
  chars : Option (List Nat)
deriving DecidableEq, Repr

/-- The limb buffer of a record (empty for the null pointer). -/
def Zahl.buf (a : Zahl) : List Nat := a.chars.getD []

/-- The C expression `a->chars[i]`: undefined outside the buffer. -/
def Zahl.rd (a : Zahl) (i : Nat) : Result Nat :=
  match a.chars with
  | none => Result.undefined
  | some l =>
    match l[i]? with
    | none => Result.undefined
    | some x => Result.ok x

/-- Value of a little-endian limb sequence in base `2^64`. -/
def limbsVal : List Nat → Nat
  | [] => 0
  | x :: xs => x + 2 ^ 64 * limbsVal xs

/-- The magnitude: sum of `chars[i] * 2^(64 i)` over `i < used`. -/
def Zahl.mag (a : Zahl) : Nat := limbsVal (a.buf.take a.used)

/-- The integer a record represents: `sign` times the magnitude. -/
def Zahl.value (a : Zahl) : Int := a.sign * (a.mag : Int)

/-- Representation invariants that come from the C types and the memory model:
every limb is a 64-bit value, `alloced` limbs are allocated, `used ≤ alloced`,
and bit indices into the used limbs are `size_t` values. -/
def Valid (a : Zahl) : Prop :=
  (∀ x ∈ a.buf, x < 2 ^ 64) ∧ a.alloced = a.buf.length ∧ a.used ≤ a.alloced ∧
    a.used * 64 < 2 ^ 64

instance (a : Zahl) : Decidable (Valid a) := by
  unfold Valid; infer_instance

/-- Canonical form: a valid record whose sign is -1, 0 or 1, whose sign is 0 exactly
when `used` is 0, and whose most significant stored limb is nonzero. -/
def Canonical (a : Zahl) : Prop :=
  Valid a ∧ (a.sign = -1 ∨ a.sign = 0 ∨ a.sign = 1) ∧ (a.sign = 0 ↔ a.used = 0) ∧
    (0 < a.used → a.buf.getD (a.used - 1) 0 ≠ 0)

instance (a : Zahl) : Decidable (Canonical a) := by
  unfold Canonical; infer_instance

/-- Addresses of `z_t` objects. -/
abbrev Ptr := Nat

/-- The store: which record lives at each address. -/
abbrev Heap := Ptr → Zahl

/-- Overwrite the record at address `p`. -/
def Heap.set (h : Heap) (p : Ptr) (z : Zahl) : Heap :=
  fun q => if q = p then z else h q

/-! ## `zahl-internals.h` -/

/-- The macro `ZAHL_SET_SIGNUM(a, signum)`: `a->sign = signum`. -/
def ZAHL_SET_SIGNUM (a : Zahl) (signum : Int) : Zahl := { a with sign := signum }

/-- The loop of `ZAHL_TRIM(a)` started with `a->used = n`:
`for (; a->used && !a->chars[a->used - 1]; a->used--)`. -/
def trimFrom (a : Zahl) : Nat → Result Zahl
  | 0 => Result.ok { a with used := 0 }
  | n + 1 =>
    match a.rd n with
    | Result.ok x => if x = 0 then trimFrom a n else Result.ok { a with used := n + 1 }
    | Result.undefined => Result.undefined
    | Result.timeout => Result.timeout

/-- The macro `ZAHL_TRIM(a)`. -/
def ZAHL_TRIM (a : Zahl) : Result Zahl := trimFrom a a.used

/-- The macro `ZAHL_TRIM_AND_ZERO(a)`:
`do { ZAHL_TRIM(a); if (!a->used) ZAHL_SET_SIGNUM(a, 0); } while (0)`. -/
def ZAHL_TRIM_AND_ZERO (a : Zahl) : Result Zahl :=
  (ZAHL_TRIM a).bind fun a1 =>
    Result.ok (if a1.used = 0 then ZAHL_SET_SIGNUM a1 0 else a1)

/-! ## Inline functions of `zahl.h` -/

/-- The function `zzero`: `return !a->sign;`. -/
def zzero (a : Zahl) : Bool := a.sign = 0

/-- The function `zsignum`: `return a->sign;`. -/
def zsignum (a : Zahl) : Int := a.sign

/-- The function `zeven`: `return !a->sign || !(a->chars[0] & 1);`
(the limb is read only when the sign is nonzero). -/
def zeven (a : Zahl) : Result Bool :=
  if a.sign = 0 then Result.ok true
  else (a.rd 0).bind fun x => Result.ok (decide (x &&& 1 = 0))

/-- The function `zodd`: `return a->sign && (a->chars[0] & 1);`. -/
def zodd (a : Zahl) : Result Bool :=
  if a.sign = 0 then Result.ok false
  else (a.rd 0).bind fun x => Result.ok (decide (x &&& 1 ≠ 0))

/-- The function `zswap`, assignment by assignment; `t` is the local temporary. -/
def zswap (h : Heap) (a b : Ptr) : Heap :=
  let t : Zahl := ⟨0, 0, 0, none⟩
  let t := { t with sign := (h a).sign }
  let h := h.set a { h a with sign := (h b).sign }
  let h := h.set b { h b with sign := t.sign }
  let t := { t with used := (h b).used }
  let h := h.set b { h b with used := (h a).used }
  let h := h.set a { h a with used := t.used }
  let t := { t with alloced := (h a).alloced }
  let h := h.set a { h a with alloced := (h b).alloced }
  let h := h.set b { h b with alloced := t.alloced }
  let t := { t with chars := (h b).chars }
  let h := h.set b { h b with chars := (h a).chars }
  let h := h.set a { h a with chars := t.chars }
  h

/-- The builtin `__builtin_ctzll(x)`: number of trailing 0-bits of `x`, counted over at
most `n` bit positions; the caller passes `n = 64`. -/
def ctzBits : Nat → Nat → Nat
  | 0, _ => 0
  | n + 1, x => if x % 2 = 1 then 0 else 1 + ctzBits n (x / 2)

/-- The builtin `__builtin_ctzll`: the result is undefined for 0. -/
def builtin_ctzll (x : Nat) : Result Nat :=
  if x = 0 then Result.undefined else Result.ok (ctzBits 64 x)

/-- Bit length of a value of at most `n` bits. -/
def bitLen : Nat → Nat → Nat
  | 0, _ => 0
  | n + 1, x => if x = 0 then 0 else 1 + bitLen n (x / 2)

/-- The builtin `__builtin_clzll`: number of leading 0-bits of a 64-bit `x`;
the result is undefined for 0. -/
def builtin_clzll (x : Nat) : Result Nat :=
  if x = 0 then Result.undefined else Result.ok (64 - bitLen 64 x)

/-- The loop `for (; !a->chars[i]; i++);` over the limbs still ahead of index `i`:
running off the end of the buffer is undefined. -/
def skipZeroLimbs : List Nat → Nat → Result Nat
  | [], _ => Result.undefined
  | x :: xs, i => if x = 0 then skipZeroLimbs xs (i + 1) else Result.ok i

/-- The loop `for (; x & 1; x >>= 1, i++);` on a 64-bit `x`, which runs its body at
most 64 times. -/
def countLowOnes : Nat → Nat → Nat → Nat
  | 0, _, i => i
  | n + 1, x, i => if x &&& 1 ≠ 0 then countLowOnes n (x >>> 1) (size_t (i + 1)) else i

/-- The function `zlsb`, branch for `__GNUC__` / `__clang__`. -/
def zlsb_gnuc (a : Zahl) : Result Nat :=
  if zzero a then Result.ok SIZE_MAX
  else
    (skipZeroLimbs a.buf 0).bind fun i =>
      let i := size_t (i * (8 * 8))
      (a.rd i).bind fun x =>
        (builtin_ctzll x).bind fun n => Result.ok (size_t (i + n))

/-- The function `zlsb`, portable branch. -/
def zlsb_portable (a : Zahl) : Result Nat :=
  if zzero a then Result.ok SIZE_MAX
  else
    (skipZeroLimbs a.buf 0).bind fun i =>
      let i := size_t (i * (8 * 8))
      (a.rd i).bind fun y =>
        let x := 2 ^ 64 - 1 - y
        Result.ok (countLowOnes 64 x i)

/-- The function `zlsb`; `gnuc` selects the preprocessor branch. -/
def zlsb (gnuc : Bool) (a : Zahl) : Result Nat :=
  if gnuc then zlsb_gnuc a else zlsb_portable a

/-- The loop `while (!a->chars[a->used - 1]) a->used--;` of `zbits` started with
`a->used = n`; at `used = 0` the index `used - 1` is outside the buffer. -/
def zbitsTrim (a : Zahl) : Nat → Result Zahl
  | 0 => Result.undefined
  | n + 1 =>
    match a.rd n with
    | Result.ok x => if x = 0 then zbitsTrim a n else Result.ok { a with used := n + 1 }
    | Result.undefined => Result.undefined
    | Result.timeout => Result.timeout

/-- The loop `for (; x; x >>= 1, rc++);` on a 64-bit `x`. -/
def countBits : Nat → Nat → Nat → Nat
  | 0, _, rc => rc
  | n + 1, x, rc => if x ≠ 0 then countBits n (x >>> 1) (size_t (rc + 1)) else rc

/-- The function `zbits`, branch for `__GNUC__` / `__clang__`; returns the result and
the record `a` as the function leaves it. -/
def zbits_gnuc (a : Zahl) : Result (Nat × Zahl) :=
  if zzero a then Result.ok (1, a)
  else
    (zbitsTrim a a.used).bind fun a =>
      let rc := size_t (a.used * 8 * 8)
      (a.rd (a.used - 1)).bind fun x =>
        (builtin_clzll x).bind fun n => Result.ok (size_t (rc + 2 ^ 64 - n), a)

/-- The function `zbits`, portable branch. -/
def zbits_portable (a : Zahl) : Result (Nat × Zahl) :=
  if zzero a then Result.ok (1, a)
  else
    (zbitsTrim a a.used).bind fun a =>
      (a.rd (a.used - 1)).bind fun x =>
        let rc := size_t ((a.used - 1) * 8 * 8)
        Result.ok (countBits 64 x rc, a)

/-- The function `zbits`; `gnuc` selects the preprocessor branch. -/
def zbits (gnuc : Bool) (a : Zahl) : Result (Nat × Zahl) :=
  if gnuc then zbits_gnuc a else zbits_portable a

/-! ## Operations declared in `zahl.h` whose bodies are in other files -/

/-- Limbs of `m`, least significant first, with no leading zero limb; the first
argument bounds the number of limbs. -/
def toLimbsAux : Nat → Nat → List Nat
  | 0, _ => []
  | n + 1, m => if m = 0 then [] else (m % 2 ^ 64) :: toLimbsAux n (m / 2 ^ 64)

/-- Canonical limb sequence of a magnitude. -/
def toLimbs (m : Nat) : List Nat := toLimbsAux m m

/-- Modelled from the spec: the write-back shared by the mutating operations whose
bodies are not under src.  The destination is grown to at least the needed size
(`ZAHL_ENSURE_SIZE`, existing limbs kept), the limbs of the magnitude `m` are
written from index 0, `used` is the trimmed limb count and the sign is `s`, or zero
for a zero magnitude (canonical form, spec section 3). -/
def store (a : Zahl) (s : Int) (m : Nat) : Zahl :=
  let ls := toLimbs m
  { sign := if m = 0 then 0 else s,
    used := ls.length,
    alloced := max a.alloced ls.length,
    chars := some (ls ++ a.buf.drop ls.length) }

/-- Modelled from the spec: `zset(a, b)`, declared as `a := b`; its body is not
under src. -/
def zset (h : Heap) (a b : Ptr) : Heap :=
  h.set a (store (h a) (h b).sign (h b).mag)

/-- Modelled from the spec: `zcmp(a, b)`, declared as `signum (a - b)`; its body is
not under src. -/
def zcmp (a b : Zahl) : Int := Int.sign (a.value - b.value)

/-- Modelled from the spec: `zcmpmag(a, b)`, declared as `signum (|a| - |b|)`; its
body is not under src. -/
def zcmpmag (a b : Zahl) : Int := Int.sign ((a.mag : Int) - (b.mag : Int))

/-- Modelled from the spec: `zrsh(a, b, c)`, declared as `a := b >> c`, a logical
shift of the magnitude that keeps the sign; its body is not under src. -/
def zrsh (h : Heap) (a b : Ptr) (c : Nat) : Heap :=
  h.set a (store (h a) (h b).sign ((h b).mag >>> c))

/-- Modelled from the spec: `zlsh(a, b, c)`, declared as `a := b << c`; its body is
not under src. -/
def zlsh (h : Heap) (a b : Ptr) (c : Nat) : Heap :=
  h.set a (store (h a) (h b).sign ((h b).mag <<< c))

/-- Modelled from the spec: `zsub_unsigned(a, b, c)`, declared as `a := |b| - |c|`;
it requires `|b| ≥ |c|`, anything else is undefined.  Its body is not under src. -/
def zsub_unsigned (h : Heap) (a b c : Ptr) : Result Heap :=
  if (h b).mag < (h c).mag then Result.undefined
  else Result.ok (h.set a (store (h a) 1 ((h b).mag - (h c).mag)))

/-- The function `zabs`: `if (a != b) zset(a, b); a->sign = !!a->sign;`. -/
def zabs (h : Heap) (a b : Ptr) : Heap :=
  let h := if a ≠ b then zset h a b else h
  h.set a { h a with sign := if (h a).sign ≠ 0 then 1 else 0 }

/-! ## `zgcd.c` -/

/-- Address of the library temporary `libzahl_tmp_gcd_u`. -/
def libzahl_tmp_gcd_u : Ptr := 0

/-- Address of the library temporary `libzahl_tmp_gcd_v`. -/
def libzahl_tmp_gcd_v : Ptr := 1

/-- The operand `(i < u->used ? u->chars[i] : 0)`. -/
def limbOrZero (a : Zahl) (i : Nat) : Result Nat :=
  if i < a.used then a.rd i else Result.ok 0

/-- The inner loop `for (bit = 1; bit; bit <<= 1, shifts++) if (uv & bit) goto loop_done;`
entered with the current `bit` and `shifts`; returns whether a set bit was found and
the value of `shifts`.  `bit` is a 64-bit value, so the loop ends after 64 steps. -/
def bitScan : Nat → Nat → Nat → Nat → Bool × Nat
  | 0, _, _, shifts => (false, shifts)
  | n + 1, uv, bit, shifts =>
    if bit = 0 then (false, shifts)
    else if uv &&& bit ≠ 0 then (true, shifts)
    else bitScan n uv ((bit <<< 1) % 2 ^ 64) (size_t (shifts + 1))

/-- The outer loop `for (;; i++) { uv = ...; for (bit ...) ... }` of `zgcd`; returns
the value of `shifts` at the label `loop_done`. -/
def commonShift : Nat → Zahl → Zahl → Nat → Nat → Result Nat
  | 0, _, _, _, _ => Result.timeout
  | fuel + 1, u, v, i, shifts =>
    (limbOrZero u i).bind fun x =>
      (limbOrZero v i).bind fun y =>
        match bitScan 65 (x ||| y) 1 shifts with
        | (true, s) => Result.ok s
        | (false, s) => commonShift fuel u v (size_t (i + 1)) s

/-- The loop `do { zrsh(v, v, zlsb(v)); if (zcmpmag(u, v) > 0) zswap(u, v);
zsub_unsigned(v, v, u); } while (!zzero(v));`. -/
def gcdLoop (gnuc : Bool) : Nat → Heap → Result Heap
  | 0, _ => Result.timeout
  | fuel + 1, h =>
    (zlsb gnuc (h libzahl_tmp_gcd_v)).bind fun n =>
      let h := zrsh h libzahl_tmp_gcd_v libzahl_tmp_gcd_v n
      let h := if zcmpmag (h libzahl_tmp_gcd_u) (h libzahl_tmp_gcd_v) > 0
        then zswap h libzahl_tmp_gcd_u libzahl_tmp_gcd_v else h
      (zsub_unsigned h libzahl_tmp_gcd_v libzahl_tmp_gcd_v libzahl_tmp_gcd_u).bind fun h =>
        if zzero (h libzahl_tmp_gcd_v) then Result.ok h else gcdLoop gnuc fuel h

/-- The function `zgcd(a, b, c)` on the store `h`; `fuel` bounds the number of
iterations of each of its two data-dependent loops. -/
def zgcd (gnuc : Bool) (fuel : Nat) (h : Heap) (a b c : Ptr) : Result Heap :=
  if zcmp (h b) (h c) = 0 then
    Result.ok (if a ≠ b then zset h a b else h)
  else if zzero (h b) then
    Result.ok (if a ≠ c then zset h a c else h)
  else if zzero (h c) then
    Result.ok (if a ≠ b then zset h a b else h)
  else
    let h := zabs h libzahl_tmp_gcd_u b
    let h := zabs h libzahl_tmp_gcd_v c
    let neg : Bool := decide (zsignum (h b) < 0) && decide (zsignum (h c) < 0)
    (commonShift fuel (h libzahl_tmp_gcd_u) (h libzahl_tmp_gcd_v) 0 0).bind fun shifts =>
      let h := zrsh h libzahl_tmp_gcd_u libzahl_tmp_gcd_u shifts
      let h := zrsh h libzahl_tmp_gcd_v libzahl_tmp_gcd_v shifts
      (zlsb gnuc (h libzahl_tmp_gcd_u)).bind fun n =>
        let h := zrsh h libzahl_tmp_gcd_u libzahl_tmp_gcd_u n
        (gcdLoop gnuc fuel h).bind fun h =>
          let h := zlsh h a libzahl_tmp_gcd_u shifts
          Result.ok (h.set a (ZAHL_SET_SIGNUM (h a) (if neg then -1 else 1)))

/-! ## Concrete stores used in examples -/

/-- A record as `zinit` and an assignment of zero leave it: no storage, value 0. -/
def zeroZahl : Zahl := ⟨0, 0, 0, none⟩

/-- A single-limb record holding `sign * m`. -/
def small (sign : Int) (m : Nat) : Zahl := ⟨sign, 1, 1, some [m]⟩

/-- A store with operand `b` at address 3 and `c` at address 4; the destination
(address 2) and the two library temporaries hold no storage yet. -/
def heapOf (b c : Zahl) : Heap :=
  fun p => if p = 3 then b else if p = 4 then c else zeroZahl

/-- Value and sign left at address `p` by a computation on stores. -/
def outcome (r : Result Heap) (p : Ptr) : Result (Int × Int × Nat) :=
  r.map fun h => ((h p).value, (h p).sign, (h p).used)

/-- The value `2^64` in a buffer of exactly two limbs. -/
def twoPow64 : Zahl := ⟨1, 2, 2, some [0, 1]⟩

/-- The value `3 * 2^130` in a buffer of exactly three limbs. -/
def threeTwoPow130 : Zahl := ⟨1, 3, 3, some [0, 0, 12]⟩

/-- The value `2^64` in a buffer of 65 limbs whose limb 64, beyond `used`, still holds
the value 8 from an earlier, larger content. -/
def twoPow64Stale : Zahl := ⟨1, 2, 65, some ([0, 1] ++ List.replicate 62 0 ++ [8])⟩

/-- A library temporary that held a 65-limb value earlier: it is zero now, and limb 64 of
its buffer still holds 8. -/
def staleTemp : Zahl := ⟨0, 0, 65, some (List.replicate 64 0 ++ [8])⟩

/-- The store `heapOf b c` with `staleTemp` as `libzahl_tmp_gcd_u`. -/
def heapStale (b c : Zahl) : Heap :=
  fun p => if p = 0 then staleTemp else heapOf b c p

/-- A positive record of exactly one used limb, holding the magnitude `m`. -/
def Single (z : Zahl) (m : Nat) : Prop :=
  z.sign = 1 ∧ z.used = 1 ∧ (∃ rest, z.chars = some (m :: rest)) ∧ 0 < m ∧ m < 2 ^ 64

/-! ## Further functions and macros of the headers -/

/-- The function `zinit`: `a->alloced = 0; a->chars = 0;`. -/
def zinit (a : Zahl) : Zahl := { a with alloced := 0, chars := none }

/-- Modelled from the spec: `zsetu(a, b)`, declared as `a := b` for a `uint64_t` `b`; its
body is not under src. -/
def zsetu (h : Heap) (a : Ptr) (b : Nat) : Heap :=
  h.set a (store (h a) 1 b)

/-- The negation `-b` of an `int64_t`, taken modulo `2^64` (two's complement). -/
def neg_int64 (b : Int) : Int := (-b + 2 ^ 63) % 2 ^ 64 - 2 ^ 63

/-- The cast `(uint64_t)x` of an `int64_t`. -/
def to_uint64 (x : Int) : Nat := (x % 2 ^ 64).toNat

/-- The function `zseti`:
`if (b >= 0) zsetu(a, (uint64_t)b); else { zsetu(a, (uint64_t)-b); a->sign = -1; }`. -/
def zseti (h : Heap) (a : Ptr) (b : Int) : Heap :=
  if b ≥ 0 then zsetu h a (to_uint64 b)
  else
    let h := zsetu h a (to_uint64 (neg_int64 b))
    h.set a { h a with sign := -1 }

/-- The macro `ZAHL_ADD_CTZ(r, x)` for `__GNUC__` / `__clang__`:
`r += (size_t)__builtin_ctzll(x)`; returns the new `r`. -/
def ZAHL_ADD_CTZ_gnuc (r x : Nat) : Result Nat :=
  (builtin_ctzll x).bind fun n => Result.ok (size_t (r + n))

/-- The macro `ZAHL_ADD_CTZ(r, x)`, portable fallback:
`zahl_char_t zahl_x__ = (x); for (; zahl_x__ & 1; zahl_x__ >>= 1, (r)++);`; returns the
new `r`. -/
def ZAHL_ADD_CTZ_portable (r x : Nat) : Nat := countLowOnes 64 x r

/-- The statements of `zgcd` from `zabs(u, b)` to `zrsh(u, u, zlsb(u))`: the store at the
first entry of the do-while loop, and `shifts`. -/
def zgcdBeforeLoop (gnuc : Bool) (fuel : Nat) (h : Heap) (b c : Ptr) : Result (Heap × Nat) :=
  let h := zabs h libzahl_tmp_gcd_u b
  let h := zabs h libzahl_tmp_gcd_v c
  (commonShift fuel (h libzahl_tmp_gcd_u) (h libzahl_tmp_gcd_v) 0 0).bind fun shifts =>
    let h := zrsh h libzahl_tmp_gcd_u libzahl_tmp_gcd_u shifts
    let h := zrsh h libzahl_tmp_gcd_v libzahl_tmp_gcd_v shifts
    (zlsb gnuc (h libzahl_tmp_gcd_u)).bind fun n =>
      Result.ok (zrsh h libzahl_tmp_gcd_u libzahl_tmp_gcd_u n, shifts)

/-- The store in which the body of the do-while loop calls `zsub_unsigned(v, v, u)`, when
the body is entered with store `h` and `zlsb(v)` has returned `n`. -/
def beforeSub (h : Heap) (n : Nat) : Heap :=
  let h := zrsh h libzahl_tmp_gcd_v libzahl_tmp_gcd_v n
  if zcmpmag (h libzahl_tmp_gcd_u) (h libzahl_tmp_gcd_v) > 0
    then zswap h libzahl_tmp_gcd_u libzahl_tmp_gcd_v else h

/-! ## Further concrete stores -/

/-- The 65-limb value `X = 1 + 8 * 2^4096`. -/
def bigX : Zahl := ⟨1, 65, 65, some ([1] ++ List.replicate 63 0 ++ [8])⟩

/-- The 65-limb value `3 * X`. -/
def bigX3 : Zahl := ⟨1, 65, 65, some ([3] ++ List.replicate 63 0 ++ [24])⟩

/-- The store after an earlier call `zgcd(a, X, 3 * X)`, with new operands `b` and `c` at
addresses 3 and 4: the temporary `u` still holds `X`, the temporary `v` is zero and its
buffer still holds the limbs of `X`. -/
def heapAfter (b c : Zahl) : Heap :=
  fun p => if p = 0 then bigX else if p = 1 then ⟨0, 0, 65, bigX.chars⟩
    else if p = 2 then bigX else heapOf b c p

/-- A store whose temporaries hold stale limbs of different parity at index 64:
8 in the buffer of `u` and 1 in the buffer of `v`. -/
def heapStaleBoth (b c : Zahl) : Heap :=
  fun p => if p = 0 then staleTemp
    else if p = 1 then ⟨0, 0, 65, some (List.replicate 64 0 ++ [1])⟩ else heapOf b c p

/-- The value of `shifts` at the label `loop_done` of `zgcd(a, b, c)`: the scan run on the
temporaries after `zabs(u, b); zabs(v, c);`. -/
def shiftsAtLoopDone (fuel : Nat) (h : Heap) (b c : Ptr) : Result Nat :=
  commonShift fuel
    ((zabs (zabs h libzahl_tmp_gcd_u b) libzahl_tmp_gcd_v c) libzahl_tmp_gcd_u)
    ((zabs (zabs h libzahl_tmp_gcd_u b) libzahl_tmp_gcd_v c) libzahl_tmp_gcd_v) 0 0

/-- The record `z` holds the magnitude `m` in `used` 64-bit limbs inside its buffer. -/
def Holds (z : Zahl) (m : Nat) : Prop :=
  z.mag = m ∧ z.used ≤ z.buf.length ∧ (∀ x ∈ z.buf.take z.used, x < 2 ^ 64) ∧
    z.used * 64 < 2 ^ 64

/-! ## Basic facts about the embedding -/

@[simp] theorem Result.bind_ok {α β : Type} (x : α) (f : α → Result β) :
    (Result.ok x).bind f = f x := rfl

@[simp] theorem Result.bind_undefined {α β : Type} (f : α → Result β) :
    (Result.undefined : Result α).bind f = Result.undefined := rfl

@[simp] theorem Result.bind_timeout {α β : Type} (f : α → Result β) :
    (Result.timeout : Result α).bind f = Result.timeout := rfl

@[simp] theorem Heap.set_same (h : Heap) (p : Ptr) (z : Zahl) : (h.set p z) p = z := by
  simp [Heap.set]

theorem Heap.set_other (h : Heap) (p q : Ptr) (z : Zahl) (hq : q ≠ p) :
    (h.set p z) q = h q := by
  simp [Heap.set, hq]

theorem rd_eq (a : Zahl) (i : Nat) (hi : i < a.buf.length) :
    a.rd i = Result.ok (a.buf.getD i 0) := by
  unfold Zahl.rd Zahl.buf at *
  cases hc : a.chars with
  | none => simp [hc] at hi
  | some l =>
    simp only [hc, Option.getD_some] at hi ⊢
    simp [List.getElem?_eq_getElem hi, List.getD_eq_getElem?_getD]

theorem limbsVal_append (l1 l2 : List Nat) :
    limbsVal (l1 ++ l2) = limbsVal l1 + 2 ^ (64 * l1.length) * limbsVal l2 := by
  induction l1 with
  | nil => simp [limbsVal]
  | cons x xs ih =>
    show x + 2 ^ 64 * limbsVal (xs ++ l2) =
      x + 2 ^ 64 * limbsVal xs + 2 ^ (64 * (xs.length + 1)) * limbsVal l2
    rw [ih, show 64 * (xs.length + 1) = 64 + 64 * xs.length by ring, pow_add]
    ring

theorem limbsVal_lt (l : List Nat) (hl : ∀ x ∈ l, x < 2 ^ 64) :
    limbsVal l < 2 ^ (64 * l.length) := by
  induction l with
  | nil => simp [limbsVal]
  | cons x xs ih =>
    have hx : x < 2 ^ 64 := hl x (List.mem_cons_self _ _)
    have hxs := ih (fun y hy => hl y (List.mem_cons_of_mem _ hy))
    simp only [limbsVal, List.length_cons]
    rw [show 64 * (xs.length + 1) = 64 + 64 * xs.length by ring, pow_add]
    nlinarith

theorem take_succ_eq (l : List Nat) (n : Nat) (hn : n < l.length) :
    l.take (n + 1) = l.take n ++ [l.getD n 0] := by
  rw [List.take_succ, List.getElem?_eq_getElem hn, List.getD_eq_getElem?_getD,
    List.getElem?_eq_getElem hn]
  rfl

/-- The magnitude splits into the limbs below the top one and the top limb. -/
theorem mag_split (a : Zahl) (k : Nat) (hu : a.used = k + 1) (hk : k < a.buf.length) :
    a.mag = limbsVal (a.buf.take k) + 2 ^ (64 * k) * a.buf.getD k 0 := by
  unfold Zahl.mag
  rw [hu, take_succ_eq _ _ hk, limbsVal_append]
  have : (a.buf.take k).length = k := by
    rw [List.length_take]; omega
  simp [this, limbsVal]

theorem Canonical.mag_pos (a : Zahl) (ha : Canonical a) (hs : a.sign ≠ 0) : 0 < a.mag := by
  obtain ⟨⟨_, hal, hua, _⟩, _, hz, htop⟩ := ha
  have hu : a.used ≠ 0 := fun h => hs (hz.2 h)
  obtain ⟨k, hk⟩ := Nat.exists_eq_succ_of_ne_zero hu
  have hk2 : k < a.buf.length := by omega
  rw [mag_split a k hk hk2]
  have h1 := htop (by omega)
  rw [hk] at h1
  simp only [Nat.succ_eq_add_one, Nat.add_sub_cancel] at h1
  have : 0 < 2 ^ (64 * k) * a.buf.getD k 0 := Nat.mul_pos (by positivity) (Nat.pos_of_ne_zero h1)
  omega

theorem Canonical.mag_zero (a : Zahl) (ha : Canonical a) (hs : a.sign = 0) : a.mag = 0 := by
  have hu := ha.2.2.1.1 hs
  simp [Zahl.mag, hu, limbsVal]

theorem Canonical.mag_eq_zero_iff (a : Zahl) (ha : Canonical a) : a.mag = 0 ↔ a.sign = 0 := by
  constructor
  · intro h
    by_contra hs
    have := Canonical.mag_pos a ha hs
    omega
  · exact Canonical.mag_zero a ha

theorem Canonical.natAbs_value (a : Zahl) (ha : Canonical a) : a.value.natAbs = a.mag := by
  unfold Zahl.value
  rcases ha.2.1 with h | h | h
  · simp [h]
  · simp [h, Canonical.mag_zero a ha h]
  · simp [h]

theorem Canonical.value_eq_zero_iff (a : Zahl) (ha : Canonical a) :
    a.value = 0 ↔ a.sign = 0 := by
  rw [← Int.natAbs_eq_zero, Canonical.natAbs_value a ha, Canonical.mag_eq_zero_iff a ha]

/-! ## Parity, exchange and trimming -/

theorem mag_mod_two (a : Zahl) (x : Nat) (rest : List Nat) (hb : a.buf = x :: rest)
    (hu : 0 < a.used) : a.mag % 2 = x % 2 := by
  obtain ⟨k, hk⟩ := Nat.exists_eq_succ_of_ne_zero (Nat.pos_iff_ne_zero.mp hu)
  unfold Zahl.mag
  rw [hb, hk, List.take_succ_cons]
  show (x + 2 ^ 64 * limbsVal (List.take k rest)) % 2 = x % 2
  omega

/-- C8: for a canonical value, `zeven` is true exactly when the represented integer is
divisible by 2 (zero is even, negative values go by magnitude), and `zodd` is true exactly
when `zeven` is false. -/
theorem zeven_zodd_parity (a : Zahl) (ha : Canonical a) :
    zeven a = Result.ok (decide ((2 : Int) ∣ a.value)) ∧
    zodd a = Result.ok (!decide ((2 : Int) ∣ a.value)) := by
  by_cases hs : a.sign = 0
  · simp [zeven, zodd, hs, Zahl.value]
  · obtain ⟨⟨_, hal, hua, _⟩, hsg, hz, _⟩ := ha
    have hu : 0 < a.used := Nat.pos_of_ne_zero (fun h => hs (hz.2 h))
    have hlen : 0 < a.buf.length := by omega
    obtain ⟨x, rest, hb⟩ := List.exists_cons_of_length_pos hlen
    have hrd : a.rd 0 = Result.ok x := by
      rw [rd_eq a 0 hlen, hb]; rfl
    have hm := mag_mod_two a x rest hb hu
    have hdvd : ((2 : Int) ∣ a.value) ↔ x % 2 = 0 := by
      have h1 : ((2 : Int) ∣ a.value) ↔ 2 ∣ a.mag := by
        rw [← Int.natAbs_dvd_natAbs]
        have : a.value.natAbs = a.mag := by
          unfold Zahl.value
          rcases hsg with h | h | h
          · simp [h]
          · exact absurd h hs
          · simp [h]
        rw [this]; rfl
      rw [h1]; omega
    by_cases hx : x % 2 = 0
    · simp [zeven, zodd, hs, hrd, Nat.and_one_is_mod, hdvd, hx]
    · have hx1 : x % 2 = 1 := by omega
      simp [zeven, zodd, hs, hrd, Nat.and_one_is_mod, hdvd, hx1]

/-- A canonical negative even value and a canonical positive odd value. -/
theorem zeven_zodd_parity_witness :
    Canonical (small (-1) 6) ∧
    zeven (small (-1) 6) = Result.ok (decide ((2 : Int) ∣ (small (-1) 6).value)) ∧
    zodd (small (-1) 6) = Result.ok (!decide ((2 : Int) ∣ (small (-1) 6).value)) :=
  ⟨by decide, zeven_zodd_parity (small (-1) 6) (by decide)⟩

theorem zswap_left (h : Heap) (a b : Ptr) : (zswap h a b) a = h b := by
  by_cases hab : a = b
  · subst hab; simp [zswap, Heap.set]
  · have hba : b ≠ a := fun e => hab e.symm
    simp [zswap, Heap.set, hab, hba]

theorem zswap_right (h : Heap) (a b : Ptr) : (zswap h a b) b = h a := by
  by_cases hab : a = b
  · subst hab; simp [zswap, Heap.set]
  · have hba : b ≠ a := fun e => hab e.symm
    simp [zswap, Heap.set, hab, hba]

theorem zswap_other (h : Heap) (a b p : Ptr) (hpa : p ≠ a) (hpb : p ≠ b) :
    (zswap h a b) p = h p := by
  simp [zswap, Heap.set, hpa, hpb]

/-- C9: `zswap(a, b)` leaves in `a` the former record of `b` and in `b` the former record of
`a` (sign, used, alloced and the limb storage, which is handed over untouched), changes no
other object, exchanges the represented integers, and undoes itself when applied twice. -/
theorem zswap_exchanges (h : Heap) (a b : Ptr) :
    ((zswap h a b) a).sign = (h b).sign ∧ ((zswap h a b) a).used = (h b).used ∧
    ((zswap h a b) a).alloced = (h b).alloced ∧ ((zswap h a b) a).chars = (h b).chars ∧
    ((zswap h a b) b).sign = (h a).sign ∧ ((zswap h a b) b).used = (h a).used ∧
    ((zswap h a b) b).alloced = (h a).alloced ∧ ((zswap h a b) b).chars = (h a).chars ∧
    (∀ p, p ≠ a → p ≠ b → (zswap h a b) p = h p) ∧
    ((zswap h a b) a).value = (h b).value ∧ ((zswap h a b) b).value = (h a).value ∧
    zswap (zswap h a b) a b = h := by
  have ha := zswap_left h a b
  have hb := zswap_right h a b
  refine ⟨by rw [ha], by rw [ha], by rw [ha], by rw [ha], by rw [hb], by rw [hb], by rw [hb],
    by rw [hb], fun p hpa hpb => zswap_other h a b p hpa hpb, by rw [ha], by rw [hb], ?_⟩
  funext p
  by_cases hpa : p = a
  · subst hpa; rw [zswap_left, zswap_right]
  · by_cases hpb : p = b
    · subst hpb; rw [zswap_right, zswap_left]
    · rw [zswap_other _ _ _ _ hpa hpb, zswap_other _ _ _ _ hpa hpb]

theorem trimFrom_spec (a : Zahl) (n : Nat) (hn : n ≤ a.buf.length) :
    ∃ k, k ≤ n ∧ trimFrom a n = Result.ok { a with used := k } ∧
      (k = 0 ∨ a.buf.getD (k - 1) 0 ≠ 0) ∧
      limbsVal (a.buf.take k) = limbsVal (a.buf.take n) := by
  induction n with
  | zero => exact ⟨0, le_refl _, rfl, Or.inl rfl, rfl⟩
  | succ n ih =>
    have hlt : n < a.buf.length := hn
    have hstep : trimFrom a (n + 1) =
        if a.buf.getD n 0 = 0 then trimFrom a n else Result.ok { a with used := n + 1 } := by
      show (match a.rd n with
        | Result.ok x => if x = 0 then trimFrom a n else Result.ok { a with used := n + 1 }
        | Result.undefined => Result.undefined
        | Result.timeout => Result.timeout) = _
      rw [rd_eq a n hlt]
    by_cases hx : a.buf.getD n 0 = 0
    · obtain ⟨k, hk, hres, htop, hval⟩ := ih (Nat.le_of_lt hlt)
      refine ⟨k, Nat.le_succ_of_le hk, ?_, htop, ?_⟩
      · rw [hstep, if_pos hx, hres]
      · rw [hval, take_succ_eq _ _ hlt, limbsVal_append, hx]
        simp [limbsVal]
    · refine ⟨n + 1, le_refl _, ?_, Or.inr hx, rfl⟩
      rw [hstep, if_neg hx]

/-- C10: for any record whose `used` limbs lie inside its buffer (any sign, any limb
contents), `ZAHL_TRIM_AND_ZERO` ends with either `used = 0` and `sign = 0`, or a nonzero limb
at index `used - 1`; `used` does not grow, the limb storage and `alloced` are unchanged, and
the magnitude is the same before and after. -/
theorem trim_and_zero_spec (a : Zahl) (hu : a.used ≤ a.buf.length) :
    ∃ r, ZAHL_TRIM_AND_ZERO a = Result.ok r ∧
      ((r.used = 0 ∧ r.sign = 0) ∨ (0 < r.used ∧ r.buf.getD (r.used - 1) 0 ≠ 0)) ∧
      r.used ≤ a.used ∧ r.chars = a.chars ∧ r.alloced = a.alloced ∧
      (∀ i, i < r.used → r.rd i = a.rd i) ∧
      (r.used ≠ 0 → r.sign = a.sign) ∧ r.mag = a.mag := by
  obtain ⟨k, hk, hres, htop, hval⟩ := trimFrom_spec a a.used hu
  by_cases hk0 : k = 0
  · subst hk0
    refine ⟨ZAHL_SET_SIGNUM { a with used := 0 } 0, ?_, Or.inl ⟨rfl, rfl⟩, Nat.zero_le _, rfl,
      rfl, fun _ _ => rfl, fun h => absurd rfl h, ?_⟩
    · simp [ZAHL_TRIM_AND_ZERO, ZAHL_TRIM, hres]
    · exact hval
  · refine ⟨{ a with used := k }, ?_, Or.inr ⟨Nat.pos_of_ne_zero hk0, ?_⟩, hk, rfl, rfl,
      fun _ _ => rfl, fun _ => rfl, hval⟩
    · simp [ZAHL_TRIM_AND_ZERO, ZAHL_TRIM, hres, hk0]
    · rcases htop with h | h
      · exact absurd h hk0
      · exact h

/-- A non-canonical record with a negative sign and two zero limbs on top. -/
theorem trim_and_zero_spec_witness :
    Zahl.used ⟨-1, 3, 4, some [7, 0, 0, 9]⟩ ≤ (Zahl.buf ⟨-1, 3, 4, some [7, 0, 0, 9]⟩).length ∧
    ∃ r, ZAHL_TRIM_AND_ZERO ⟨-1, 3, 4, some [7, 0, 0, 9]⟩ = Result.ok r ∧
      ((r.used = 0 ∧ r.sign = 0) ∨ (0 < r.used ∧ r.buf.getD (r.used - 1) 0 ≠ 0)) ∧
      r.used ≤ 3 ∧ r.chars = some [7, 0, 0, 9] ∧ r.alloced = 4 ∧
      (∀ i, i < r.used → r.rd i = Zahl.rd ⟨-1, 3, 4, some [7, 0, 0, 9]⟩ i) ∧
      (r.used ≠ 0 → r.sign = -1) ∧ r.mag = Zahl.mag ⟨-1, 3, 4, some [7, 0, 0, 9]⟩ :=
  ⟨by decide, trim_and_zero_spec ⟨-1, 3, 4, some [7, 0, 0, 9]⟩ (by decide)⟩

/-! ## Bit length and lowest set bit -/

theorem bitLen_zero (n : Nat) : bitLen n 0 = 0 := by
  cases n <;> simp [bitLen]

theorem bitLen_spec (n x : Nat) (hx : 0 < x) (hn : x < 2 ^ n) :
    1 ≤ bitLen n x ∧ bitLen n x ≤ n ∧ 2 ^ (bitLen n x - 1) ≤ x ∧ x < 2 ^ bitLen n x := by
  induction n generalizing x with
  | zero => simp at hn; omega
  | succ n ih =>
    have hx0 : x ≠ 0 := by omega
    have hstep : bitLen (n + 1) x = 1 + bitLen n (x / 2) := by simp [bitLen, hx0]
    by_cases h2 : x / 2 = 0
    · have hx1 : x = 1 := by omega
      rw [hstep, h2, bitLen_zero, hx1]
      simp
    · have hlt : x / 2 < 2 ^ n := by
        rw [pow_succ] at hn; omega
      obtain ⟨h1, h3, h4, h5⟩ := ih (x / 2) (by omega) hlt
      rw [hstep]
      refine ⟨by omega, by omega, ?_, ?_⟩
      · rw [show 1 + bitLen n (x / 2) - 1 = (bitLen n (x / 2) - 1) + 1 by omega, pow_succ]
        omega
      · rw [show 1 + bitLen n (x / 2) = bitLen n (x / 2) + 1 by omega, pow_succ]
        omega

theorem countBits_eq (n x rc : Nat) (hrc : rc + n < 2 ^ 64) :
    countBits n x rc = rc + bitLen n x := by
  induction n generalizing x rc with
  | zero => simp [countBits, bitLen]
  | succ n ih =>
    by_cases hx : x = 0
    · simp [countBits, bitLen, hx]
    · have hs : size_t (rc + 1) = rc + 1 := by
        unfold size_t; exact Nat.mod_eq_of_lt (by omega)
      simp only [countBits, bitLen, hx, ne_eq, not_false_eq_true, if_true, if_false, hs,
        Nat.shiftRight_eq_div_pow, pow_one]
      rw [ih (x / 2) (rc + 1) (by omega)]
      omega

theorem Valid.limb_lt (a : Zahl) (ha : Valid a) (i : Nat) (hi : i < a.buf.length) :
    a.buf.getD i 0 < 2 ^ 64 := by
  apply ha.1
  rw [List.getD_eq_getElem _ _ hi]
  exact List.getElem_mem hi

theorem zbitsTrim_canonical (a : Zahl) (k : Nat) (hu : a.used = k + 1)
    (hk : k < a.buf.length) (htop : a.buf.getD k 0 ≠ 0) :
    zbitsTrim a a.used = Result.ok a := by
  rw [hu]
  show (match a.rd k with
    | Result.ok x => if x = 0 then zbitsTrim a k else Result.ok { a with used := k + 1 }
    | Result.undefined => Result.undefined
    | Result.timeout => Result.timeout) = _
  rw [rd_eq a k hk]
  simp only [htop, if_false]
  rw [← hu]

/-- C7: for a canonical value, `zbits` (either preprocessor branch) returns 1 for zero and
otherwise `floor(log2 |a|) + 1`, the unique `n` with `2^(n-1) ≤ |a| < 2^n`; the record is
left as it was. -/
theorem zbits_spec (gnuc : Bool) (a : Zahl) (ha : Canonical a) :
    ∃ n, zbits gnuc a = Result.ok (n, a) ∧ (a.value = 0 → n = 1) ∧
      (a.value ≠ 0 → n = Nat.log 2 a.value.natAbs + 1 ∧
        2 ^ (n - 1) ≤ a.value.natAbs ∧ a.value.natAbs < 2 ^ n) := by
  by_cases hs : a.sign = 0
  · refine ⟨1, ?_, fun _ => rfl, fun h => absurd ((Canonical.value_eq_zero_iff a ha).2 hs) h⟩
    cases gnuc <;> simp [zbits, zbits_gnuc, zbits_portable, zzero, hs]
  · have hval := ha.1
    obtain ⟨hlimb, hal, hua, hsz⟩ := ha.1
    have hu0 : a.used ≠ 0 := fun h => hs (ha.2.2.1.2 h)
    obtain ⟨k, hk⟩ := Nat.exists_eq_succ_of_ne_zero hu0
    have hk2 : k < a.buf.length := by omega
    have htop : a.buf.getD k 0 ≠ 0 := by
      have := ha.2.2.2 (by omega)
      rwa [hk, Nat.succ_eq_add_one, Nat.add_sub_cancel] at this
    have htoplt := Valid.limb_lt a hval k hk2
    obtain ⟨hL1, hL2, hL3, hL4⟩ := bitLen_spec 64 (a.buf.getD k 0) (Nat.pos_of_ne_zero htop) htoplt
    have htrim := zbitsTrim_canonical a k hk hk2 htop
    have hrd : a.rd (a.used - 1) = Result.ok (a.buf.getD k 0) := by
      rw [hk, Nat.succ_eq_add_one, Nat.add_sub_cancel, rd_eq a k hk2]
    have hk64 : k * 64 + 64 < 2 ^ 64 := by
      rw [hk] at hsz; omega
    have hres : zbits gnuc a = Result.ok (k * 64 + bitLen 64 (a.buf.getD k 0), a) := by
      cases gnuc
      · simp only [zbits, zbits_portable, zzero, hs, decide_False, Bool.false_eq_true,
          if_false, htrim, Result.bind_ok, hrd]
        have h1 : size_t ((a.used - 1) * 8 * 8) = k * 64 := by
          unfold size_t
          rw [hk, Nat.succ_eq_add_one, Nat.add_sub_cancel, Nat.mul_assoc]
          exact Nat.mod_eq_of_lt (by omega)
        rw [h1, countBits_eq _ _ _ (by omega)]
      · simp only [zbits, zbits_gnuc, zzero, hs, decide_False, Bool.false_eq_true,
          if_false, if_true, htrim, Result.bind_ok, hrd, builtin_clzll, htop]
        have h1 : size_t (a.used * 8 * 8) = k * 64 + 64 := by
          unfold size_t
          rw [hk, Nat.succ_eq_add_one, Nat.mul_assoc]
          rw [Nat.mod_eq_of_lt (by omega)]
          omega
        rw [h1]
        congr 2
        unfold size_t
        rw [show k * 64 + 64 + 2 ^ 64 - (64 - bitLen 64 (a.buf.getD k 0)) =
          (k * 64 + bitLen 64 (a.buf.getD k 0)) + 2 ^ 64 by omega, Nat.add_mod_right]
        exact Nat.mod_eq_of_lt (by omega)
    have hmag := mag_split a k hk hk2
    have hlow : limbsVal (a.buf.take k) < 2 ^ (64 * k) := by
      have h1 := limbsVal_lt (a.buf.take k) (fun x hx => hlimb x (List.mem_of_mem_take hx))
      rwa [List.length_take, Nat.min_eq_left (by omega)] at h1
    have hlo : 2 ^ (k * 64 + bitLen 64 (a.buf.getD k 0) - 1) ≤ a.mag := by
      rw [hmag, show k * 64 + bitLen 64 (a.buf.getD k 0) - 1 =
        64 * k + (bitLen 64 (a.buf.getD k 0) - 1) by omega, pow_add]
      have := Nat.mul_le_mul_left (2 ^ (64 * k)) hL3
      omega
    have hhi : a.mag < 2 ^ (k * 64 + bitLen 64 (a.buf.getD k 0)) := by
      rw [hmag, show k * 64 + bitLen 64 (a.buf.getD k 0) =
        64 * k + bitLen 64 (a.buf.getD k 0) by omega, pow_add]
      have h1 : a.buf.getD k 0 + 1 ≤ 2 ^ bitLen 64 (a.buf.getD k 0) := hL4
      have := Nat.mul_le_mul_left (2 ^ (64 * k)) h1
      rw [Nat.mul_add, Nat.mul_one] at this
      omega
    refine ⟨_, hres, fun h => absurd ((Canonical.value_eq_zero_iff a ha).1 h) hs, fun _ => ?_⟩
    rw [Canonical.natAbs_value a ha]
    refine ⟨?_, hlo, hhi⟩
    have hlog : Nat.log 2 a.mag = k * 64 + bitLen 64 (a.buf.getD k 0) - 1 := by
      apply Nat.log_eq_of_pow_le_of_lt_pow hlo
      rw [show k * 64 + bitLen 64 (a.buf.getD k 0) - 1 + 1 =
        k * 64 + bitLen 64 (a.buf.getD k 0) by omega]
      exact hhi
    rw [hlog]; omega

/-- The value `5 * 2^64 + 8` has 67 bits; a canonical zero has bit length 1. -/
theorem zbits_spec_witness :
    Canonical ⟨-1, 2, 2, some [8, 5]⟩ ∧
    ∃ n, zbits true ⟨-1, 2, 2, some [8, 5]⟩ = Result.ok (n, ⟨-1, 2, 2, some [8, 5]⟩) ∧
      ((Zahl.value ⟨-1, 2, 2, some [8, 5]⟩) = 0 → n = 1) ∧
      ((Zahl.value ⟨-1, 2, 2, some [8, 5]⟩) ≠ 0 →
        n = Nat.log 2 (Zahl.value ⟨-1, 2, 2, some [8, 5]⟩).natAbs + 1 ∧
        2 ^ (n - 1) ≤ (Zahl.value ⟨-1, 2, 2, some [8, 5]⟩).natAbs ∧
        (Zahl.value ⟨-1, 2, 2, some [8, 5]⟩).natAbs < 2 ^ n) :=
  ⟨by decide, zbits_spec true ⟨-1, 2, 2, some [8, 5]⟩ (by decide)⟩

/-- C6: `zlsb` at values whose lowest limb is zero.  After `i *= 64` the function indexes
`a->chars[i]` with the bit index instead of the limb index: for `2^64` and `3 * 2^130` in
exactly fitting buffers the read is outside the buffer, and for `2^64` in a larger buffer
the stale limb 64 is used and the result is 67 instead of 64. -/
theorem zlsb_low_limb_zero :
    Canonical twoPow64 ∧ twoPow64.value = 2 ^ 64 ∧
    zlsb true twoPow64 = Result.undefined ∧ zlsb false twoPow64 = Result.undefined ∧
    Canonical threeTwoPow130 ∧ threeTwoPow130.value = 3 * 2 ^ 130 ∧
    zlsb true threeTwoPow130 = Result.undefined ∧
    zlsb false threeTwoPow130 = Result.undefined ∧
    Canonical twoPow64Stale ∧ twoPow64Stale.value = 2 ^ 64 ∧
    zlsb true twoPow64Stale = Result.ok 67 ∧ zlsb false twoPow64Stale = Result.ok 67 := by
  decide

/-! ## The write-back and the fast paths of `zgcd` -/

theorem toLimbsAux_zero (n : Nat) : toLimbsAux n 0 = [] := by
  cases n <;> simp [toLimbsAux]

theorem limbsVal_toLimbsAux (n m : Nat) (h : m ≤ n) : limbsVal (toLimbsAux n m) = m := by
  induction n generalizing m with
  | zero =>
    have : m = 0 := by omega
    subst this; rfl
  | succ n ih =>
    by_cases hm : m = 0
    · subst hm; rfl
    · have hstep : toLimbsAux (n + 1) m = (m % 2 ^ 64) :: toLimbsAux n (m / 2 ^ 64) := by
        simp [toLimbsAux, hm]
      have hdiv : m / 2 ^ 64 ≤ n := by
        have : m / 2 ^ 64 < m := Nat.div_lt_self (Nat.pos_of_ne_zero hm) (by norm_num)
        omega
      rw [hstep]
      show m % 2 ^ 64 + 2 ^ 64 * limbsVal (toLimbsAux n (m / 2 ^ 64)) = m
      rw [ih _ hdiv]
      exact Nat.mod_add_div m (2 ^ 64)

theorem limbsVal_toLimbs (m : Nat) : limbsVal (toLimbs m) = m :=
  limbsVal_toLimbsAux m m (le_refl m)

theorem store_buf (a : Zahl) (s : Int) (m : Nat) :
    (store a s m).buf = toLimbs m ++ a.buf.drop (toLimbs m).length := rfl

@[simp] theorem store_mag (a : Zahl) (s : Int) (m : Nat) : (store a s m).mag = m := by
  unfold Zahl.mag
  rw [store_buf]
  show limbsVal (List.take (toLimbs m).length _) = m
  rw [List.take_left, limbsVal_toLimbs]

theorem store_sign (a : Zahl) (s : Int) (m : Nat) :
    (store a s m).sign = if m = 0 then 0 else s := rfl

theorem store_value (a : Zahl) (s : Int) (m : Nat) : (store a s m).value = s * (m : Int) := by
  unfold Zahl.value
  rw [store_mag, store_sign]
  by_cases hm : m = 0 <;> simp [hm]

theorem zcmp_eq_zero_iff (a b : Zahl) : zcmp a b = 0 ↔ a.value = b.value := by
  unfold zcmp
  rw [Int.sign_eq_zero_iff_zero, sub_eq_zero]

/-- What `zset(a, b)` leaves at `a` for a canonical `b`, and that it touches nothing else. -/
theorem zset_spec (h : Heap) (a b : Ptr) (hb : Canonical (h b)) :
    ((zset h a b) a).sign = (h b).sign ∧ ((zset h a b) a).mag = (h b).mag ∧
    ((zset h a b) a).value = (h b).value ∧ ∀ p, p ≠ a → (zset h a b) p = h p := by
  refine ⟨?_, ?_, ?_, fun p hp => Heap.set_other _ _ _ _ hp⟩
  · simp only [zset, Heap.set_same, store_sign]
    by_cases hm : (h b).mag = 0
    · simp [hm, (Canonical.mag_eq_zero_iff _ hb).1 hm]
    · simp [hm]
  · simp [zset]
  · simp only [zset, Heap.set_same, store_value]; rfl

/-- The three fast paths all end in `if (a != x) zset(a, x)` for an operand `x`. -/
theorem set_unless_same (h : Heap) (a x : Ptr) (hx : Canonical (h x)) :
    ((if a ≠ x then zset h a x else h) a).sign = (h x).sign ∧
    ((if a ≠ x then zset h a x else h) a).mag = (h x).mag ∧
    ((if a ≠ x then zset h a x else h) a).value = (h x).value ∧
    (a = x → (if a ≠ x then zset h a x else h) = h) ∧
    ∀ p, p ≠ a → (if a ≠ x then zset h a x else h) p = h p := by
  by_cases hax : a = x
  · subst hax; simp
  · rw [if_pos hax]
    obtain ⟨h1, h2, h3, h4⟩ := zset_spec h a x hx
    exact ⟨h1, h2, h3, fun e => absurd e hax, h4⟩

/-- First fast path: operands that compare equal. -/
theorem zgcd_of_cmp_zero (gnuc : Bool) (fuel : Nat) (h : Heap) (a b c : Ptr)
    (hbc : (h b).value = (h c).value) :
    zgcd gnuc fuel h a b c = Result.ok (if a ≠ b then zset h a b else h) := by
  simp [zgcd, (zcmp_eq_zero_iff _ _).2 hbc]

/-- C4: for canonical operands of equal value, `zgcd(a, x, x)` leaves `a` equal to the
operand, sign and magnitude; when the destination is the operand object itself the store
is unchanged, and no object other than `a` is touched. -/
theorem zgcd_equal_operands (gnuc : Bool) (fuel : Nat) (h : Heap) (a b c : Ptr)
    (hb : Canonical (h b)) (hbc : (h b).value = (h c).value) :
    ∃ r, zgcd gnuc fuel h a b c = Result.ok r ∧
      (r a).sign = (h b).sign ∧ (r a).mag = (h b).mag ∧ (r a).value = (h b).value ∧
      (a = b → r = h) ∧ ∀ p, p ≠ a → r p = h p := by
  exact ⟨if a ≠ b then zset h a b else h, zgcd_of_cmp_zero gnuc fuel h a b c hbc,
    set_unless_same h a b hb⟩

/-- The call `zgcd(a, x, x)` with `x = -5` at address 3 and destination 2, and the
fully aliased call `zgcd(x, x, x)`. -/
theorem zgcd_equal_operands_witness :
    Canonical (heapOf (small (-1) 5) zeroZahl 3) ∧
    (∃ r, zgcd true 0 (heapOf (small (-1) 5) zeroZahl) 2 3 3 = Result.ok r ∧
      (r 2).sign = (heapOf (small (-1) 5) zeroZahl 3).sign ∧
      (r 2).mag = (heapOf (small (-1) 5) zeroZahl 3).mag ∧
      (r 2).value = (heapOf (small (-1) 5) zeroZahl 3).value ∧
      (2 = 3 → r = heapOf (small (-1) 5) zeroZahl) ∧
      ∀ p, p ≠ 2 → r p = heapOf (small (-1) 5) zeroZahl p) :=
  ⟨by decide,
    zgcd_equal_operands true 0 (heapOf (small (-1) 5) zeroZahl) 2 3 3 (by decide) rfl⟩

/-- C3, the claim fails: `zgcd(a, -5, 0)` leaves `-5` in `a`, not `|-5| = 5`. -/
theorem zgcd_zero_second_keeps_sign :
    Canonical (small (-1) 5) ∧ Canonical zeroZahl ∧ zeroZahl.value = 0 ∧
    (small (-1) 5).value = -5 ∧
    outcome (zgcd true 0 (heapOf (small (-1) 5) zeroZahl) 2 3 4) 2 = Result.ok (-5, -1, 1) ∧
    outcome (zgcd false 0 (heapOf (small (-1) 5) zeroZahl) 2 3 4) 2 = Result.ok (-5, -1, 1) := by
  decide

/-- C3 as amended: for canonical `b` and canonical `c = 0`, `zgcd(a, b, c)` writes `b`
itself to `a`, with the sign of `b` and the magnitude of `b`. -/
theorem zgcd_zero_second (gnuc : Bool) (fuel : Nat) (h : Heap) (a b c : Ptr)
    (hb : Canonical (h b)) (hc : Canonical (h c)) (hz : (h c).value = 0) :
    ∃ r, zgcd gnuc fuel h a b c = Result.ok r ∧
      (r a).sign = (h b).sign ∧ (r a).mag = (h b).mag ∧ (r a).value = (h b).value := by
  obtain ⟨h1, h2, h3, _⟩ := set_unless_same h a b hb
  by_cases hbc : (h b).value = (h c).value
  · exact ⟨_, zgcd_of_cmp_zero gnuc fuel h a b c hbc, h1, h2, h3⟩
  · have hcs : (h c).sign = 0 := (Canonical.value_eq_zero_iff _ hc).1 hz
    have hbs : (h b).sign ≠ 0 := by
      intro hs
      exact hbc (by rw [hz, (Canonical.value_eq_zero_iff _ hb).2 hs])
    refine ⟨if a ≠ b then zset h a b else h, ?_, h1, h2, h3⟩
    simp [zgcd, zcmp_eq_zero_iff, hbc, zzero, hcs, hbs]

/-- The call `zgcd(a, -5, 0)`. -/
theorem zgcd_zero_second_witness :
    Canonical (heapOf (small (-1) 5) zeroZahl 3) ∧
    Canonical (heapOf (small (-1) 5) zeroZahl 4) ∧
    (heapOf (small (-1) 5) zeroZahl 4).value = 0 ∧
    (∃ r, zgcd true 0 (heapOf (small (-1) 5) zeroZahl) 2 3 4 = Result.ok r ∧
      (r 2).sign = (heapOf (small (-1) 5) zeroZahl 3).sign ∧
      (r 2).mag = (heapOf (small (-1) 5) zeroZahl 3).mag ∧
      (r 2).value = (heapOf (small (-1) 5) zeroZahl 3).value) :=
  ⟨by decide, by decide, by decide,
    zgcd_zero_second true 0 (heapOf (small (-1) 5) zeroZahl) 2 3 4 (by decide) (by decide)
      (by decide)⟩

/-! ## Trailing zeros -/

theorem ctzBits_le (n x : Nat) : ctzBits n x ≤ n := by
  induction n generalizing x with
  | zero => simp [ctzBits]
  | succ n ih =>
    by_cases h : x % 2 = 1
    · simp [ctzBits, h]
    · have := ih (x / 2)
      simp only [ctzBits, h, if_false]
      omega

theorem ctzBits_spec (n x : Nat) (hx : 0 < x) (hn : x < 2 ^ n) :
    2 ^ ctzBits n x ∣ x ∧ x / 2 ^ ctzBits n x % 2 = 1 := by
  induction n generalizing x with
  | zero => simp at hn; omega
  | succ n ih =>
    by_cases h : x % 2 = 1
    · simp [ctzBits, h]
    · have hlt : x / 2 < 2 ^ n := by
        rw [pow_succ] at hn; omega
      obtain ⟨h1, h2⟩ := ih (x / 2) (by omega) hlt
      have hstep : ctzBits (n + 1) x = ctzBits n (x / 2) + 1 := by
        simp only [ctzBits, h, if_false]; omega
      rw [hstep, pow_succ]
      constructor
      · have h3 : 2 ^ ctzBits n (x / 2) * 2 ∣ x / 2 * 2 := Nat.mul_dvd_mul h1 (dvd_refl 2)
        have hx2 : x / 2 * 2 = x := by omega
        rwa [hx2] at h3
      · rw [Nat.mul_comm, ← Nat.div_div_eq_div_mul]
        exact h2

theorem countLowOnes_eq (n x i : Nat) (hx : x < 2 ^ n) (hi : i + n < 2 ^ 64) :
    countLowOnes n (2 ^ n - 1 - x) i = i + ctzBits n x := by
  induction n generalizing x i with
  | zero => simp [countLowOnes, ctzBits]
  | succ n ih =>
    have hp : 2 ^ (n + 1) = 2 * 2 ^ n := by rw [pow_succ]; ring
    have hpos : 0 < 2 ^ n := by positivity
    by_cases h : x % 2 = 1
    · have h0 : (2 ^ (n + 1) - 1 - x) % 2 = 0 := by omega
      simp [countLowOnes, ctzBits, h, Nat.and_one_is_mod, h0]
    · have h1 : (2 ^ (n + 1) - 1 - x) % 2 = 1 := by omega
      have hs : size_t (i + 1) = i + 1 := by
        unfold size_t; exact Nat.mod_eq_of_lt (by omega)
      have hd : (2 ^ (n + 1) - 1 - x) / 2 = 2 ^ n - 1 - x / 2 := by omega
      simp only [countLowOnes, ctzBits, h, Nat.and_one_is_mod, h1, ne_eq, one_ne_zero,
        not_false_eq_true, if_true, if_false, hs, Nat.shiftRight_eq_div_pow, pow_one, hd]
      rw [ih (x / 2) (i + 1) (by omega) (by omega)]
      omega

theorem mod_two_pow_eq_zero_iff (x s : Nat) :
    x % 2 ^ s = 0 ↔ ∀ i, i < s → x.testBit i = false := by
  constructor
  · intro h i hi
    have := Nat.testBit_mod_two_pow x s i
    rw [h] at this
    simpa [hi] using this.symm
  · intro h
    apply Nat.zero_of_testBit_eq_false
    intro i
    rw [Nat.testBit_mod_two_pow]
    by_cases hi : i < s
    · simp [h i hi]
    · simp [hi]

theorem testBit_iff_div (x s : Nat) : x.testBit s = true ↔ x / 2 ^ s % 2 = 1 := by
  rw [Nat.testBit_to_div_mod]; simp

theorem bitScan_succ (n uv bit shifts : Nat) :
    bitScan (n + 1) uv bit shifts =
      if bit = 0 then (false, shifts)
      else if uv &&& bit ≠ 0 then (true, shifts)
      else bitScan n uv ((bit <<< 1) % 2 ^ 64) (size_t (shifts + 1)) := rfl

/-- The inner bit scan finds the lowest set bit of a nonzero 64-bit word. -/
theorem bitScan_spec (n k uv : Nat) (huv : uv < 2 ^ 64) (h0 : uv ≠ 0)
    (hlow : ∀ i, i < k → uv.testBit i = false) (hn : 65 ≤ n + k) :
    ∃ s, bitScan n uv (2 ^ k % 2 ^ 64) k = (true, s) ∧ k ≤ s ∧ s < 64 ∧
      (∀ i, i < s → uv.testBit i = false) ∧ uv.testBit s = true := by
  have hk : k < 64 := by
    by_contra hk
    apply h0
    apply Nat.zero_of_testBit_eq_false
    intro i
    by_cases hi : i < k
    · exact hlow i hi
    · apply Nat.testBit_lt_two_pow
      calc uv < 2 ^ 64 := huv
        _ ≤ 2 ^ i := Nat.pow_le_pow_right (by norm_num) (by omega)
  induction n generalizing k with
  | zero => omega
  | succ n ih =>
    have hbit : 2 ^ k % 2 ^ 64 = 2 ^ k :=
      Nat.mod_eq_of_lt (Nat.pow_lt_pow_right (by norm_num) hk)
    have hne : (2 : Nat) ^ k ≠ 0 := by positivity
    by_cases hb : uv.testBit k = true
    · refine ⟨k, ?_, le_refl _, hk, hlow, hb⟩
      have hand : uv &&& 2 ^ k = 2 ^ k := by rw [Nat.and_two_pow, hb]; simp
      rw [hbit, bitScan_succ, if_neg hne, hand, if_pos hne]
    · have hb' : uv.testBit k = false := by simpa using hb
      have hlow' : ∀ i, i < k + 1 → uv.testBit i = false := by
        intro i hi
        by_cases hik : i < k
        · exact hlow i hik
        · have : i = k := by omega
          rw [this]; exact hb'
      have hk' : k + 1 < 64 := by
        by_contra hk2
        apply h0
        apply Nat.zero_of_testBit_eq_false
        intro i
        by_cases hi : i < k + 1
        · exact hlow' i hi
        · apply Nat.testBit_lt_two_pow
          calc uv < 2 ^ 64 := huv
            _ ≤ 2 ^ i := Nat.pow_le_pow_right (by norm_num) (by omega)
      obtain ⟨s, h1, h2, h3, h4, h5⟩ := ih (k + 1) hlow' (by omega) hk'
      refine ⟨s, ?_, by omega, h3, h4, h5⟩
      have hs : size_t (k + 1) = k + 1 := by
        unfold size_t; exact Nat.mod_eq_of_lt (by omega)
      have hsh : (2 ^ k <<< 1) % 2 ^ 64 = 2 ^ (k + 1) % 2 ^ 64 := by
        rw [Nat.shiftLeft_eq, pow_one, ← pow_succ]
      have hand : uv &&& 2 ^ k = 0 := by rw [Nat.and_two_pow, hb']; simp
      rw [hbit, bitScan_succ, if_neg hne, hand, if_neg (fun h => h rfl), hs, hsh]
      exact h1

/-! ## Single-limb operands on the main path of `zgcd` -/

theorem Single.mag_eq {z : Zahl} {m : Nat} (h : Single z m) : z.mag = m := by
  obtain ⟨_, hu, ⟨rest, hc⟩, _, _⟩ := h
  unfold Zahl.mag Zahl.buf
  rw [hc, hu]
  simp [limbsVal]

theorem Single.rd_zero {z : Zahl} {m : Nat} (h : Single z m) : z.rd 0 = Result.ok m := by
  obtain ⟨_, _, ⟨rest, hc⟩, _, _⟩ := h
  unfold Zahl.rd
  rw [hc]
  simp

theorem toLimbs_single (m : Nat) (h0 : 0 < m) (hm : m < 2 ^ 64) : toLimbs m = [m] := by
  obtain ⟨n, rfl⟩ := Nat.exists_eq_succ_of_ne_zero (Nat.pos_iff_ne_zero.mp h0)
  unfold toLimbs
  have hstep : toLimbsAux (n + 1) (n + 1) =
      ((n + 1) % 2 ^ 64) :: toLimbsAux n ((n + 1) / 2 ^ 64) := by
    simp [toLimbsAux]
  rw [Nat.succ_eq_add_one, hstep, Nat.mod_eq_of_lt hm, Nat.div_eq_of_lt hm, toLimbsAux_zero]

theorem store_fields (a : Zahl) (s : Int) (m : Nat) (h0 : 0 < m) (hm : m < 2 ^ 64) :
    (store a s m).sign = s ∧ (store a s m).used = 1 ∧
      (store a s m).chars = some (m :: a.buf.drop 1) := by
  have hl := toLimbs_single m h0 hm
  have hne : m ≠ 0 := by omega
  refine ⟨by simp [store, hne], by simp [store, hl], by simp [store, hl]⟩

theorem store_single (a : Zahl) (m : Nat) (h0 : 0 < m) (hm : m < 2 ^ 64) :
    Single (store a 1 m) m := by
  obtain ⟨h1, h2, h3⟩ := store_fields a 1 m h0 hm
  exact ⟨h1, h2, ⟨_, h3⟩, h0, hm⟩

/-- A canonical nonzero operand of at most one limb has a magnitude below `2^64`. -/
theorem Canonical.single_mag (b : Zahl) (hb : Canonical b) (hu : b.used ≤ 1)
    (hs : b.sign ≠ 0) : 0 < b.mag ∧ b.mag < 2 ^ 64 := by
  refine ⟨Canonical.mag_pos b hb hs, ?_⟩
  obtain ⟨⟨hlimb, hal, hua, _⟩, _, hz, _⟩ := hb
  have hu1 : b.used = 0 + 1 := by
    have : b.used ≠ 0 := fun h => hs (hz.2 h)
    omega
  have hlen : 0 < b.buf.length := by omega
  rw [mag_split b 0 hu1 hlen]
  have := Valid.limb_lt b ⟨hlimb, hal, hua, by omega⟩ 0 hlen
  simpa [limbsVal] using this

/-- The copy made by `zabs(t, b)` for a temporary `t` other than `b`. -/
theorem zabs_single (h : Heap) (t b : Ptr) (htb : t ≠ b) (hb : Canonical (h b))
    (hu : (h b).used ≤ 1) (hs : (h b).sign ≠ 0) :
    Single ((zabs h t b) t) (h b).mag ∧ ∀ p, p ≠ t → (zabs h t b) p = h p := by
  obtain ⟨h0, hm⟩ := Canonical.single_mag (h b) hb hu hs
  obtain ⟨h1, h2, h3⟩ := store_fields (h t) (h b).sign (h b).mag h0 hm
  constructor
  · simp only [zabs, ne_eq, htb, not_false_eq_true, if_true, Heap.set_same, zset]
    refine ⟨?_, h2, ⟨_, h3⟩, h0, hm⟩
    simp [h1, hs]
  · intro p hp
    simp only [zabs, ne_eq, htb, not_false_eq_true, if_true, zset]
    rw [Heap.set_other _ _ _ _ hp, Heap.set_other _ _ _ _ hp]

/-- The shift `zrsh(p, p, n)` of a single-limb record by a power of two that divides it. -/
theorem zrsh_single (h : Heap) (p : Ptr) (n m : Nat) (hp : Single (h p) m)
    (hd : 2 ^ n ∣ m) :
    Single ((zrsh h p p n) p) (m / 2 ^ n) ∧ ∀ q, q ≠ p → (zrsh h p p n) q = h q := by
  have hpos : 0 < m / 2 ^ n :=
    Nat.div_pos (Nat.le_of_dvd hp.2.2.2.1 hd) (by positivity)
  have hlt : m / 2 ^ n < 2 ^ 64 := lt_of_le_of_lt (Nat.div_le_self _ _) hp.2.2.2.2
  constructor
  · simp only [zrsh, Heap.set_same, Single.mag_eq hp, Nat.shiftRight_eq_div_pow, hp.1]
    exact store_single _ _ hpos hlt
  · intro q hq
    exact Heap.set_other _ _ _ _ hq

theorem zlsb_single (gnuc : Bool) (z : Zahl) (m : Nat) (h : Single z m) :
    zlsb gnuc z = Result.ok (ctzBits 64 m) := by
  have hrd := Single.rd_zero h
  obtain ⟨hs, hu, ⟨rest, hc⟩, h0, hm⟩ := h
  have hne : m ≠ 0 := by omega
  have hbuf : z.buf = m :: rest := by simp [Zahl.buf, hc]
  have hskip : skipZeroLimbs z.buf 0 = Result.ok 0 := by
    rw [hbuf]; simp [skipZeroLimbs, hne]
  have hz : zzero z = false := by simp [zzero, hs]
  have hi : size_t (0 * (8 * 8)) = 0 := by simp [size_t]
  have hle := ctzBits_le 64 m
  cases gnuc
  · simp only [zlsb, Bool.false_eq_true, if_false, zlsb_portable, hz, hskip, Result.bind_ok,
      hi, hrd]
    rw [countLowOnes_eq 64 m 0 hm (by norm_num)]
    simp
  · simp only [zlsb, if_true, zlsb_gnuc, hz, Bool.false_eq_true, if_false, hskip,
      Result.bind_ok, hi, hrd, builtin_ctzll, hne]
    congr 1
    unfold size_t
    rw [Nat.zero_add]
    exact Nat.mod_eq_of_lt (by omega)

theorem or_ne_zero_left (x y : Nat) (hx : x ≠ 0) : x ||| y ≠ 0 := by
  intro h
  apply hx
  apply Nat.zero_of_testBit_eq_false
  intro i
  have := Nat.testBit_or x y i
  rw [h] at this
  simp at this
  exact this.1

/-- On single-limb operands the scan for the common trailing zeros stops in limb 0. -/
theorem commonShift_single (fuel : Nat) (u v : Zahl) (x y : Nat) (hu : Single u x)
    (hv : Single v y) :
    ∃ s, commonShift (fuel + 1) u v 0 0 = Result.ok s ∧ s < 64 ∧ 2 ^ s ∣ x ∧ 2 ^ s ∣ y ∧
      (x / 2 ^ s % 2 = 1 ∨ y / 2 ^ s % 2 = 1) := by
  have hx : limbOrZero u 0 = Result.ok x := by
    simp [limbOrZero, hu.2.1, Single.rd_zero hu]
  have hy : limbOrZero v 0 = Result.ok y := by
    simp [limbOrZero, hv.2.1, Single.rd_zero hv]
  have hlt : x ||| y < 2 ^ 64 := Nat.or_lt_two_pow hu.2.2.2.2 hv.2.2.2.2
  have hne : x ||| y ≠ 0 := or_ne_zero_left x y (by have := hu.2.2.2.1; omega)
  obtain ⟨s, h1, _, h3, h4, h5⟩ :=
    bitScan_spec 65 0 (x ||| y) hlt hne (fun i hi => absurd hi (Nat.not_lt_zero i)) (by norm_num)
  have h1' : bitScan 65 (x ||| y) 1 0 = (true, s) := by
    have : (2 : Nat) ^ 0 % 2 ^ 64 = 1 := by norm_num
    rw [this] at h1; exact h1
  refine ⟨s, ?_, h3, ?_, ?_, ?_⟩
  · show ((limbOrZero u 0).bind fun x => (limbOrZero v 0).bind fun y =>
        match bitScan 65 (x ||| y) 1 0 with
        | (true, s) => Result.ok s
        | (false, s) => commonShift fuel u v (size_t (0 + 1)) s) = Result.ok s
    rw [hx, Result.bind_ok, hy, Result.bind_ok, h1']
  · apply Nat.dvd_of_mod_eq_zero
    rw [mod_two_pow_eq_zero_iff]
    intro i hi
    have := h4 i hi
    rw [Nat.testBit_or] at this
    simp at this
    exact this.1
  · apply Nat.dvd_of_mod_eq_zero
    rw [mod_two_pow_eq_zero_iff]
    intro i hi
    have := h4 i hi
    rw [Nat.testBit_or] at this
    simp at this
    exact this.2
  · rw [Nat.testBit_or] at h5
    rw [← testBit_iff_div, ← testBit_iff_div]
    simpa using h5

/-! ## The subtraction loop -/

theorem zcmpmag_pos_iff (a b : Zahl) : 0 < zcmpmag a b ↔ b.mag < a.mag := by
  unfold zcmpmag
  rcases lt_trichotomy ((a.mag : Int) - (b.mag : Int)) 0 with h | h | h
  · rw [Int.sign_eq_neg_one_of_neg h]
    constructor
    · intro h1; omega
    · intro h1; omega
  · rw [h, Int.sign_zero]
    constructor
    · intro h1; omega
    · intro h1; omega
  · rw [Int.sign_eq_one_of_pos h]
    constructor
    · intro _; omega
    · intro _; decide

theorem gcdLoop_succ (gnuc : Bool) (fuel : Nat) (h : Heap) :
    gcdLoop gnuc (fuel + 1) h =
      (zlsb gnuc (h libzahl_tmp_gcd_v)).bind fun n =>
        (zsub_unsigned
          (if zcmpmag ((zrsh h libzahl_tmp_gcd_v libzahl_tmp_gcd_v n) libzahl_tmp_gcd_u)
              ((zrsh h libzahl_tmp_gcd_v libzahl_tmp_gcd_v n) libzahl_tmp_gcd_v) > 0
            then zswap (zrsh h libzahl_tmp_gcd_v libzahl_tmp_gcd_v n)
              libzahl_tmp_gcd_u libzahl_tmp_gcd_v
            else zrsh h libzahl_tmp_gcd_v libzahl_tmp_gcd_v n)
          libzahl_tmp_gcd_v libzahl_tmp_gcd_v libzahl_tmp_gcd_u).bind fun h =>
            if zzero (h libzahl_tmp_gcd_v) then Result.ok h else gcdLoop gnuc fuel h := rfl

theorem gcd_div_two_pow (x y t : Nat) (hx : x % 2 = 1) (hd : 2 ^ t ∣ y) :
    Nat.gcd x (y / 2 ^ t) = Nat.gcd x y := by
  have hcop : Nat.Coprime (2 ^ t) x :=
    Nat.Coprime.pow_left t (Nat.coprime_two_left.2 (Nat.odd_iff.2 hx))
  have := Nat.Coprime.gcd_mul_right_cancel_right (y / 2 ^ t) hcop
  rw [Nat.div_mul_cancel hd] at this
  exact this.symm

theorem tmp_u_ne_v : libzahl_tmp_gcd_u ≠ libzahl_tmp_gcd_v := by decide

/-- One pass from `zsub_unsigned` to the loop test, for `u ≤ v` held in single limbs. -/
theorem gcdLoop_tail (gnuc : Bool) (fuel : Nat) (g : Nat)
    (ih : ∀ (h : Heap) (x y : Nat), Single (h libzahl_tmp_gcd_u) x →
      Single (h libzahl_tmp_gcd_v) y → x % 2 = 1 → x + y ≤ fuel →
      ∃ r, gcdLoop gnuc fuel h = Result.ok r ∧ Single (r libzahl_tmp_gcd_u) (Nat.gcd x y) ∧
        ∀ p, p ≠ libzahl_tmp_gcd_u → p ≠ libzahl_tmp_gcd_v → r p = h p)
    (h2 : Heap) (x y : Nat) (hu : Single (h2 libzahl_tmp_gcd_u) x)
    (hv : Single (h2 libzahl_tmp_gcd_v) y) (hle : x ≤ y) (hx : x % 2 = 1)
    (hg : Nat.gcd x y = g) (hf : y ≤ fuel) :
    ∃ r, ((zsub_unsigned h2 libzahl_tmp_gcd_v libzahl_tmp_gcd_v libzahl_tmp_gcd_u).bind
        fun h => if zzero (h libzahl_tmp_gcd_v) then Result.ok h else gcdLoop gnuc fuel h)
        = Result.ok r ∧
      Single (r libzahl_tmp_gcd_u) g ∧
      ∀ p, p ≠ libzahl_tmp_gcd_u → p ≠ libzahl_tmp_gcd_v → r p = h2 p := by
  have hsub : zsub_unsigned h2 libzahl_tmp_gcd_v libzahl_tmp_gcd_v libzahl_tmp_gcd_u =
      Result.ok (h2.set libzahl_tmp_gcd_v (store (h2 libzahl_tmp_gcd_v) 1 (y - x))) := by
    unfold zsub_unsigned
    rw [Single.mag_eq hu, Single.mag_eq hv, if_neg (by omega)]
  rw [hsub, Result.bind_ok]
  by_cases he : y = x
  · refine ⟨h2.set libzahl_tmp_gcd_v (store (h2 libzahl_tmp_gcd_v) 1 (y - x)), ?_, ?_,
      fun p _ hp => Heap.set_other _ _ _ _ hp⟩
    · have : zzero ((h2.set libzahl_tmp_gcd_v (store (h2 libzahl_tmp_gcd_v) 1 (y - x)))
          libzahl_tmp_gcd_v) = true := by
        simp [zzero, store_sign, he]
      rw [this]; rfl
    · rw [Heap.set_other _ _ _ _ tmp_u_ne_v, ← hg, he, Nat.gcd_self]
      exact hu
  · have hpos : 0 < y - x := by omega
    have hlt : y - x < 2 ^ 64 := by have := hv.2.2.2.2; omega
    have hv3 := store_single (h2 libzahl_tmp_gcd_v) (y - x) hpos hlt
    have hz : zzero ((h2.set libzahl_tmp_gcd_v (store (h2 libzahl_tmp_gcd_v) 1 (y - x)))
        libzahl_tmp_gcd_v) = false := by
      rw [Heap.set_same]
      simp [zzero, hv3.1]
    rw [hz]
    obtain ⟨r, h1, h2', h3⟩ := ih
      (h2.set libzahl_tmp_gcd_v (store (h2 libzahl_tmp_gcd_v) 1 (y - x))) x (y - x)
      (by rw [Heap.set_other _ _ _ _ tmp_u_ne_v]; exact hu)
      (by rw [Heap.set_same]; exact hv3) hx (by omega)
    refine ⟨r, by simpa using h1, ?_, fun p hp1 hp2 => ?_⟩
    · rw [Nat.gcd_sub_self_right hle, hg] at h2'
      exact h2'
    · rw [h3 p hp1 hp2, Heap.set_other _ _ _ _ hp2]

/-- The loop of `zgcd` on single-limb `u` (odd) and `v`: with fuel at least `u + v` it
ends with `u = gcd(u, v)` and touches only the two temporaries. -/
theorem gcdLoop_single (gnuc : Bool) (fuel : Nat) :
    ∀ (h : Heap) (x y : Nat), Single (h libzahl_tmp_gcd_u) x →
      Single (h libzahl_tmp_gcd_v) y → x % 2 = 1 → x + y ≤ fuel →
      ∃ r, gcdLoop gnuc fuel h = Result.ok r ∧ Single (r libzahl_tmp_gcd_u) (Nat.gcd x y) ∧
        ∀ p, p ≠ libzahl_tmp_gcd_u → p ≠ libzahl_tmp_gcd_v → r p = h p := by
  induction fuel with
  | zero =>
    intro h x y hu hv _ hf
    have := hu.2.2.2.1
    omega
  | succ fuel ih =>
    intro h x y hu hv hx hf
    have hx0 := hu.2.2.2.1
    have hy0 := hv.2.2.2.1
    obtain ⟨hd, _⟩ := ctzBits_spec 64 y hy0 hv.2.2.2.2
    obtain ⟨hv1, ho1⟩ := zrsh_single h libzahl_tmp_gcd_v (ctzBits 64 y) y hv hd
    have hu1 : Single ((zrsh h libzahl_tmp_gcd_v libzahl_tmp_gcd_v (ctzBits 64 y))
        libzahl_tmp_gcd_u) x := by
      rw [ho1 _ tmp_u_ne_v]; exact hu
    have hdle : y / 2 ^ ctzBits 64 y ≤ y := Nat.div_le_self _ _
    have hgcd := gcd_div_two_pow x y (ctzBits 64 y) hx hd
    have hodd := (ctzBits_spec 64 y hy0 hv.2.2.2.2).2
    rw [gcdLoop_succ, zlsb_single gnuc _ y hv, Result.bind_ok]
    by_cases hc : y / 2 ^ ctzBits 64 y < x
    · have hcmp : zcmpmag ((zrsh h libzahl_tmp_gcd_v libzahl_tmp_gcd_v (ctzBits 64 y))
          libzahl_tmp_gcd_u)
          ((zrsh h libzahl_tmp_gcd_v libzahl_tmp_gcd_v (ctzBits 64 y)) libzahl_tmp_gcd_v) > 0 := by
        rw [gt_iff_lt, zcmpmag_pos_iff, Single.mag_eq hu1, Single.mag_eq hv1]
        exact hc
      rw [if_pos hcmp]
      obtain ⟨r, h1, h2, h3⟩ := gcdLoop_tail gnuc fuel (Nat.gcd x y) ih
        (zswap (zrsh h libzahl_tmp_gcd_v libzahl_tmp_gcd_v (ctzBits 64 y))
          libzahl_tmp_gcd_u libzahl_tmp_gcd_v)
        (y / 2 ^ ctzBits 64 y) x
        (by rw [zswap_left]; exact hv1) (by rw [zswap_right]; exact hu1)
        (Nat.le_of_lt hc) hodd (by rw [Nat.gcd_comm]; exact hgcd) (by omega)
      refine ⟨r, h1, h2, fun p hp1 hp2 => ?_⟩
      rw [h3 p hp1 hp2, zswap_other _ _ _ _ hp1 hp2, ho1 p hp2]
    · have hcmp : ¬ zcmpmag ((zrsh h libzahl_tmp_gcd_v libzahl_tmp_gcd_v (ctzBits 64 y))
          libzahl_tmp_gcd_u)
          ((zrsh h libzahl_tmp_gcd_v libzahl_tmp_gcd_v (ctzBits 64 y)) libzahl_tmp_gcd_v) > 0 := by
        rw [gt_iff_lt, zcmpmag_pos_iff, Single.mag_eq hu1, Single.mag_eq hv1]
        exact hc
      rw [if_neg hcmp]
      obtain ⟨r, h1, h2, h3⟩ := gcdLoop_tail gnuc fuel (Nat.gcd x y) ih
        (zrsh h libzahl_tmp_gcd_v libzahl_tmp_gcd_v (ctzBits 64 y))
        x (y / 2 ^ ctzBits 64 y) hu1 hv1 (by omega) hx hgcd (by omega)
      refine ⟨r, h1, h2, fun p hp1 hp2 => ?_⟩
      rw [h3 p hp1 hp2, ho1 p hp2]

/-! ## `zgcd` on operands of at most one limb -/

theorem ctzBits_odd (n x : Nat) (hx : x % 2 = 1) : ctzBits (n + 1) x = 0 := by
  simp [ctzBits, hx]

/-- The main path of `zgcd`, after the three fast-path tests have failed. -/
theorem zgcd_main_path (gnuc : Bool) (fuel : Nat) (h : Heap) (a b c : Ptr)
    (hcmp : zcmp (h b) (h c) ≠ 0) (hb : zzero (h b) = false) (hc : zzero (h c) = false) :
    zgcd gnuc fuel h a b c =
      (commonShift fuel
        ((zabs (zabs h libzahl_tmp_gcd_u b) libzahl_tmp_gcd_v c) libzahl_tmp_gcd_u)
        ((zabs (zabs h libzahl_tmp_gcd_u b) libzahl_tmp_gcd_v c) libzahl_tmp_gcd_v) 0 0).bind
      fun shifts =>
        (zlsb gnuc ((zrsh (zrsh (zabs (zabs h libzahl_tmp_gcd_u b) libzahl_tmp_gcd_v c)
          libzahl_tmp_gcd_u libzahl_tmp_gcd_u shifts)
          libzahl_tmp_gcd_v libzahl_tmp_gcd_v shifts) libzahl_tmp_gcd_u)).bind fun n =>
          (gcdLoop gnuc fuel (zrsh (zrsh (zrsh
            (zabs (zabs h libzahl_tmp_gcd_u b) libzahl_tmp_gcd_v c)
            libzahl_tmp_gcd_u libzahl_tmp_gcd_u shifts)
            libzahl_tmp_gcd_v libzahl_tmp_gcd_v shifts)
            libzahl_tmp_gcd_u libzahl_tmp_gcd_u n)).bind fun r =>
            Result.ok ((zlsh r a libzahl_tmp_gcd_u shifts).set a
              (ZAHL_SET_SIGNUM ((zlsh r a libzahl_tmp_gcd_u shifts) a)
                (if (decide (zsignum
                    ((zabs (zabs h libzahl_tmp_gcd_u b) libzahl_tmp_gcd_v c) b) < 0) &&
                  decide (zsignum
                    ((zabs (zabs h libzahl_tmp_gcd_u b) libzahl_tmp_gcd_v c) c) < 0)) = true
                  then -1 else 1))) := by
  unfold zgcd
  rw [if_neg hcmp, hb, hc]
  rfl

/-- The main path on canonical nonzero operands of one limb each: with fuel above
`|b| + |c|` the call returns, and `a` receives the limbs of `gcd(|b|, |c|)` with sign -1
when both operands are negative and 1 otherwise. -/
theorem zgcd_main_single (gnuc : Bool) (fuel : Nat) (h : Heap) (a b c : Ptr)
    (hbu : b ≠ libzahl_tmp_gcd_u) (hbv : b ≠ libzahl_tmp_gcd_v)
    (hcu : c ≠ libzahl_tmp_gcd_u) (hcv : c ≠ libzahl_tmp_gcd_v)
    (hb : Canonical (h b)) (hc : Canonical (h c))
    (hb1 : (h b).used ≤ 1) (hc1 : (h c).used ≤ 1)
    (hbs : (h b).sign ≠ 0) (hcs : (h c).sign ≠ 0) (hne : (h b).value ≠ (h c).value)
    (hf : (h b).mag + (h c).mag < fuel) :
    ∃ r z, zgcd gnuc fuel h a b c = Result.ok r ∧
      r a = ZAHL_SET_SIGNUM (store z 1 (Nat.gcd (h b).mag (h c).mag))
        (if (h b).sign < 0 ∧ (h c).sign < 0 then -1 else 1) ∧
      (a ≠ libzahl_tmp_gcd_u → a ≠ libzahl_tmp_gcd_v → z = h a) ∧
      ∀ p, p ≠ a → p ≠ libzahl_tmp_gcd_u → p ≠ libzahl_tmp_gcd_v → r p = h p := by
  have huv := tmp_u_ne_v
  have hvu : libzahl_tmp_gcd_v ≠ libzahl_tmp_gcd_u := fun e => huv e.symm
  obtain ⟨hB0, hBlt⟩ := Canonical.single_mag (h b) hb hb1 hbs
  obtain ⟨hC0, hClt⟩ := Canonical.single_mag (h c) hc hc1 hcs
  -- the two copies
  obtain ⟨hu1, ho1⟩ := zabs_single h libzahl_tmp_gcd_u b (fun e => hbu e.symm) hb hb1 hbs
  have hc' : (zabs h libzahl_tmp_gcd_u b) c = h c := ho1 c hcu
  obtain ⟨hv2, ho2⟩ := zabs_single (zabs h libzahl_tmp_gcd_u b) libzahl_tmp_gcd_v c
    (fun e => hcv e.symm) (by rw [hc']; exact hc) (by rw [hc']; exact hc1)
    (by rw [hc']; exact hcs)
  rw [hc'] at hv2
  have hu2 : Single ((zabs (zabs h libzahl_tmp_gcd_u b) libzahl_tmp_gcd_v c)
      libzahl_tmp_gcd_u) (h b).mag := by
    rw [ho2 _ huv]; exact hu1
  have hb2 : (zabs (zabs h libzahl_tmp_gcd_u b) libzahl_tmp_gcd_v c) b = h b := by
    rw [ho2 b hbv, ho1 b hbu]
  have hc2 : (zabs (zabs h libzahl_tmp_gcd_u b) libzahl_tmp_gcd_v c) c = h c := by
    rw [ho2 c hcv, ho1 c hcu]
  have hoth2 : ∀ p, p ≠ libzahl_tmp_gcd_u → p ≠ libzahl_tmp_gcd_v →
      (zabs (zabs h libzahl_tmp_gcd_u b) libzahl_tmp_gcd_v c) p = h p := by
    intro p hp1 hp2
    rw [ho2 p hp2, ho1 p hp1]
  rw [zgcd_main_path gnuc fuel h a b c (by rw [Ne, zcmp_eq_zero_iff]; exact hne)
    (by simp [zzero, hbs]) (by simp [zzero, hcs]), hb2, hc2]
  generalize zabs (zabs h libzahl_tmp_gcd_u b) libzahl_tmp_gcd_v c = h2 at hu2 hv2 hoth2 ⊢
  -- the common shift
  obtain ⟨f, rfl⟩ : ∃ f, fuel = f + 1 := ⟨fuel - 1, by omega⟩
  obtain ⟨s, hs1, _, hsB, hsC, hodd⟩ := commonShift_single f _ _ _ _ hu2 hv2
  rw [hs1, Result.bind_ok]
  obtain ⟨hu3, ho3⟩ := zrsh_single h2 libzahl_tmp_gcd_u s _ hu2 hsB
  have hv3 : Single ((zrsh h2 libzahl_tmp_gcd_u libzahl_tmp_gcd_u s) libzahl_tmp_gcd_v)
      (h c).mag := by
    rw [ho3 _ hvu]; exact hv2
  have hoth3 : ∀ p, p ≠ libzahl_tmp_gcd_u → p ≠ libzahl_tmp_gcd_v →
      (zrsh h2 libzahl_tmp_gcd_u libzahl_tmp_gcd_u s) p = h p := by
    intro p hp1 hp2
    rw [ho3 p hp1, hoth2 p hp1 hp2]
  generalize zrsh h2 libzahl_tmp_gcd_u libzahl_tmp_gcd_u s = h3 at hu3 hv3 hoth3 ⊢
  obtain ⟨hv4, ho4⟩ := zrsh_single h3 libzahl_tmp_gcd_v s _ hv3 hsC
  have hu4 : Single ((zrsh h3 libzahl_tmp_gcd_v libzahl_tmp_gcd_v s) libzahl_tmp_gcd_u)
      ((h b).mag / 2 ^ s) := by
    rw [ho4 _ huv]; exact hu3
  have hoth4 : ∀ p, p ≠ libzahl_tmp_gcd_u → p ≠ libzahl_tmp_gcd_v →
      (zrsh h3 libzahl_tmp_gcd_v libzahl_tmp_gcd_v s) p = h p := by
    intro p hp1 hp2
    rw [ho4 p hp2, hoth3 p hp1 hp2]
  generalize zrsh h3 libzahl_tmp_gcd_v libzahl_tmp_gcd_v s = h4 at hu4 hv4 hoth4 ⊢
  -- strip the low zero bits of u
  rw [zlsb_single gnuc _ _ hu4, Result.bind_ok]
  obtain ⟨htd, htodd⟩ := ctzBits_spec 64 _ hu4.2.2.2.1 hu4.2.2.2.2
  obtain ⟨hu5, ho5⟩ := zrsh_single h4 libzahl_tmp_gcd_u (ctzBits 64 ((h b).mag / 2 ^ s)) _
    hu4 htd
  have hv5 : Single ((zrsh h4 libzahl_tmp_gcd_u libzahl_tmp_gcd_u
      (ctzBits 64 ((h b).mag / 2 ^ s))) libzahl_tmp_gcd_v) ((h c).mag / 2 ^ s) := by
    rw [ho5 _ hvu]; exact hv4
  have hoth5 : ∀ p, p ≠ libzahl_tmp_gcd_u → p ≠ libzahl_tmp_gcd_v →
      (zrsh h4 libzahl_tmp_gcd_u libzahl_tmp_gcd_u (ctzBits 64 ((h b).mag / 2 ^ s))) p = h p := by
    intro p hp1 hp2
    rw [ho5 p hp1, hoth4 p hp1 hp2]
  generalize zrsh h4 libzahl_tmp_gcd_u libzahl_tmp_gcd_u (ctzBits 64 ((h b).mag / 2 ^ s)) = h5
    at hu5 hv5 hoth5 ⊢
  -- the loop
  have hle1 : (h b).mag / 2 ^ s / 2 ^ ctzBits 64 ((h b).mag / 2 ^ s) ≤ (h b).mag :=
    le_trans (Nat.div_le_self _ _) (Nat.div_le_self _ _)
  have hle2 : (h c).mag / 2 ^ s ≤ (h c).mag := Nat.div_le_self _ _
  obtain ⟨r, hr1, hr2, hr3⟩ := gcdLoop_single gnuc (f + 1) h5 _ _ hu5 hv5 htodd (by omega)
  rw [hr1, Result.bind_ok]
  -- the value of `u` at the end of the loop
  have hG : Nat.gcd ((h b).mag / 2 ^ s / 2 ^ ctzBits 64 ((h b).mag / 2 ^ s))
      ((h c).mag / 2 ^ s) * 2 ^ s = Nat.gcd (h b).mag (h c).mag := by
    have h1 : Nat.gcd ((h b).mag / 2 ^ s / 2 ^ ctzBits 64 ((h b).mag / 2 ^ s))
        ((h c).mag / 2 ^ s) = Nat.gcd ((h b).mag / 2 ^ s) ((h c).mag / 2 ^ s) := by
      rcases hodd with ho | ho
      · rw [ctzBits_odd 63 _ ho]; simp
      · rw [Nat.gcd_comm, gcd_div_two_pow _ _ _ ho htd, Nat.gcd_comm]
    rw [h1, ← Nat.gcd_mul_right, Nat.div_mul_cancel hsB, Nat.div_mul_cancel hsC]
  refine ⟨_, r a, rfl, ?_, fun ha1 ha2 => ?_, fun p hpa hp1 hp2 => ?_⟩
  · rw [Heap.set_same]
    simp only [zlsh, Heap.set_same, hr2.1, Single.mag_eq hr2, Nat.shiftLeft_eq, hG, zsignum]
    congr 1
    by_cases h1 : (h b).sign < 0 <;> by_cases h2 : (h c).sign < 0 <;> simp [h1, h2]
  · rw [hr3 a ha1 ha2, hoth5 a ha1 ha2]
  · rw [Heap.set_other _ _ _ _ hpa]
    simp only [zlsh]
    rw [Heap.set_other _ _ _ _ hpa, hr3 p hp1 hp2, hoth5 p hp1 hp2]

/-! ## The result of `zgcd` -/

theorem zgcd_of_zero_left (gnuc : Bool) (fuel : Nat) (h : Heap) (a b c : Ptr)
    (hbc : (h b).value ≠ (h c).value) (hb : (h b).sign = 0) :
    zgcd gnuc fuel h a b c = Result.ok (if a ≠ c then zset h a c else h) := by
  simp [zgcd, zcmp_eq_zero_iff, hbc, zzero, hb]

theorem zgcd_of_zero_right (gnuc : Bool) (fuel : Nat) (h : Heap) (a b c : Ptr)
    (hbc : (h b).value ≠ (h c).value) (hb : (h b).sign ≠ 0) (hc : (h c).sign = 0) :
    zgcd gnuc fuel h a b c = Result.ok (if a ≠ b then zset h a b else h) := by
  simp [zgcd, zcmp_eq_zero_iff, hbc, zzero, hb, hc]

theorem Canonical.sign_eq_of_value_eq (b c : Zahl) (hb : Canonical b) (hc : Canonical c)
    (hv : b.value = c.value) : b.sign = c.sign := by
  have hbm := Canonical.mag_eq_zero_iff b hb
  have hcm := Canonical.mag_eq_zero_iff c hc
  unfold Zahl.value at hv
  rcases hb.2.1 with h1 | h1 | h1 <;> rcases hc.2.1 with h2 | h2 | h2 <;>
    rw [h1, h2] at hv ⊢ <;> first | rfl | (exfalso; simp only [h1, h2] at hbm hcm; omega)

/-- For canonical operands of at most one limb and fuel above `|b| + |c|`, `zgcd` returns
and the magnitude of the result is `gcd(|b|, |c|)`; for nonzero operands its sign is -1
when both are negative and 1 otherwise. -/
theorem zgcd_single_limb (gnuc : Bool) (fuel : Nat) (h : Heap) (a b c : Ptr)
    (hbu : b ≠ libzahl_tmp_gcd_u) (hbv : b ≠ libzahl_tmp_gcd_v)
    (hcu : c ≠ libzahl_tmp_gcd_u) (hcv : c ≠ libzahl_tmp_gcd_v)
    (hb : Canonical (h b)) (hc : Canonical (h c))
    (hb1 : (h b).used ≤ 1) (hc1 : (h c).used ≤ 1)
    (hf : (h b).mag + (h c).mag < fuel) :
    ∃ r, zgcd gnuc fuel h a b c = Result.ok r ∧
      (r a).value.natAbs = Nat.gcd (h b).mag (h c).mag ∧
      ((h b).sign ≠ 0 → (h c).sign ≠ 0 →
        (r a).sign = if (h b).sign < 0 ∧ (h c).sign < 0 then -1 else 1) ∧
      ((h b).sign = 0 → (r a).value = (h c).value) ∧
      ((h c).sign = 0 → (r a).value = (h b).value) := by
  by_cases hv : (h b).value = (h c).value
  · obtain ⟨h1, _, h3, _⟩ := set_unless_same h a b hb
    refine ⟨_, zgcd_of_cmp_zero gnuc fuel h a b c hv, ?_, fun hbs _ => ?_,
      fun _ => by rw [h3, hv], fun _ => h3⟩
    · have hm : (h c).mag = (h b).mag := by
        rw [← Canonical.natAbs_value _ hc, ← Canonical.natAbs_value _ hb, hv]
      rw [h3, Canonical.natAbs_value _ hb, hm, Nat.gcd_self]
    · have hs := Canonical.sign_eq_of_value_eq _ _ hb hc hv
      rw [h1, ← hs]
      rcases hb.2.1 with h2 | h2 | h2
      · simp [h2]
      · exact absurd h2 hbs
      · simp [h2]
  · by_cases hbs : (h b).sign = 0
    · obtain ⟨_, _, h3, _⟩ := set_unless_same h a c hc
      refine ⟨_, zgcd_of_zero_left gnuc fuel h a b c hv hbs, ?_, fun h4 _ => absurd hbs h4,
        fun _ => h3, fun hcs => ?_⟩
      · rw [h3, Canonical.natAbs_value _ hc, Canonical.mag_zero _ hb hbs, Nat.gcd_zero_left]
      · exfalso
        exact hv (by rw [(Canonical.value_eq_zero_iff _ hb).2 hbs,
          (Canonical.value_eq_zero_iff _ hc).2 hcs])
    · by_cases hcs : (h c).sign = 0
      · obtain ⟨_, _, h3, _⟩ := set_unless_same h a b hb
        refine ⟨_, zgcd_of_zero_right gnuc fuel h a b c hv hbs hcs, ?_,
          fun _ h4 => absurd hcs h4, fun h4 => absurd h4 hbs, fun _ => h3⟩
        rw [h3, Canonical.natAbs_value _ hb, Canonical.mag_zero _ hc hcs, Nat.gcd_zero_right]
      · obtain ⟨r, z, h1, h2, _, _⟩ := zgcd_main_single gnuc fuel h a b c hbu hbv hcu hcv
          hb hc hb1 hc1 hbs hcs hv hf
        refine ⟨r, h1, ?_, fun _ _ => ?_, fun h4 => absurd h4 hbs, fun h4 => absurd h4 hcs⟩
        · rw [h2]
          have hm : (ZAHL_SET_SIGNUM (store z 1 (Nat.gcd (h b).mag (h c).mag))
              (if (h b).sign < 0 ∧ (h c).sign < 0 then -1 else 1)).mag =
              Nat.gcd (h b).mag (h c).mag := store_mag z 1 _
          unfold Zahl.value
          rw [hm]
          by_cases h5 : (h b).sign < 0 ∧ (h c).sign < 0 <;> simp [ZAHL_SET_SIGNUM, h5]
        · rw [h2]; rfl

/-- C5, the claim fails: the value -6 that `zgcd` computes for (-48, -18) times
`lcm(48, 18) = 144` is -864, not `|(-48) * (-18)| = 864`. -/
theorem zgcd_mul_lcm_negative :
    Canonical (small (-1) 48) ∧ Canonical (small (-1) 18) ∧
    outcome (zgcd true 100 (heapOf (small (-1) 48) (small (-1) 18)) 2 3 4) 2
      = Result.ok (-6, -1, 1) ∧
    outcome (zgcd false 100 (heapOf (small (-1) 48) (small (-1) 18)) 2 3 4) 2
      = Result.ok (-6, -1, 1) ∧
    (-6 : Int) * (Int.lcm (small (-1) 48).value (small (-1) 18).value : Int) ≠
      |(small (-1) 48).value * (small (-1) 18).value| := by
  decide

/-- C5 as amended: for canonical operands `b` and `c` of at most one limb each (the
operands are not the library temporaries) and fuel above `|b| + |c|`, the value `g` that
`zgcd` computes satisfies `|g| * lcm(b, c) = |b * c|`. -/
theorem zgcd_mul_lcm (gnuc : Bool) (fuel : Nat) (h : Heap) (a b c : Ptr)
    (hbu : b ≠ libzahl_tmp_gcd_u) (hbv : b ≠ libzahl_tmp_gcd_v)
    (hcu : c ≠ libzahl_tmp_gcd_u) (hcv : c ≠ libzahl_tmp_gcd_v)
    (hb : Canonical (h b)) (hc : Canonical (h c))
    (hb1 : (h b).used ≤ 1) (hc1 : (h c).used ≤ 1)
    (hf : (h b).mag + (h c).mag < fuel) :
    ∃ r, zgcd gnuc fuel h a b c = Result.ok r ∧
      |(r a).value| * (Int.lcm (h b).value (h c).value : Int) =
        |(h b).value * (h c).value| := by
  obtain ⟨r, h1, h2, _⟩ := zgcd_single_limb gnuc fuel h a b c hbu hbv hcu hcv hb hc hb1 hc1 hf
  refine ⟨r, h1, ?_⟩
  rw [Int.abs_eq_natAbs, Int.abs_eq_natAbs, h2, Int.natAbs_mul, Int.lcm,
    Canonical.natAbs_value _ hb, Canonical.natAbs_value _ hc]
  exact_mod_cast Nat.gcd_mul_lcm (h b).mag (h c).mag

/-- The call `zgcd(a, -48, 18)`. -/
theorem zgcd_mul_lcm_witness :
    Canonical (heapOf (small (-1) 48) (small 1 18) 3) ∧
    Canonical (heapOf (small (-1) 48) (small 1 18) 4) ∧
    ∃ r, zgcd true 100 (heapOf (small (-1) 48) (small 1 18)) 2 3 4 = Result.ok r ∧
      |(r 2).value| * (Int.lcm (heapOf (small (-1) 48) (small 1 18) 3).value
          (heapOf (small (-1) 48) (small 1 18) 4).value : Int) =
        |(heapOf (small (-1) 48) (small 1 18) 3).value *
          (heapOf (small (-1) 48) (small 1 18) 4).value| :=
  ⟨by decide, by decide,
    zgcd_mul_lcm true 100 (heapOf (small (-1) 48) (small 1 18)) 2 3 4 (by decide) (by decide)
      (by decide) (by decide) (by decide) (by decide) (by decide) (by decide) (by decide)⟩

/-- C1: `zgcd` at `b = 2^64`, `c = 1`.  On a fresh library state the call `zlsb(u)` reads
outside the buffer of `u`, so no result is defined; the greatest common divisor is 1.
With a stale limb in the buffer of `u`, `zgcd(a, 12 * 2^64, 9)` returns 1 while the
greatest common divisor is 3. -/
theorem zgcd_multi_limb_fails :
    Canonical twoPow64 ∧ Canonical (small 1 1) ∧
    Nat.gcd twoPow64.mag (small 1 1).mag = 1 ∧
    outcome (zgcd true 60 (heapOf twoPow64 (small 1 1)) 2 3 4) 2 = Result.undefined ∧
    outcome (zgcd false 60 (heapOf twoPow64 (small 1 1)) 2 3 4) 2 = Result.undefined ∧
    Canonical ⟨1, 2, 2, some [0, 12]⟩ ∧ Canonical (small 1 9) ∧
    Nat.gcd (Zahl.mag ⟨1, 2, 2, some [0, 12]⟩) (small 1 9).mag = 3 ∧
    outcome (zgcd true 60 (heapStale ⟨1, 2, 2, some [0, 12]⟩ (small 1 9)) 2 3 4) 2
      = Result.ok (1, 1, 1) ∧
    outcome (zgcd false 60 (heapStale ⟨1, 2, 2, some [0, 12]⟩ (small 1 9)) 2 3 4) 2
      = Result.ok (1, 1, 1) := by
  decide

/-- C2: `zgcd` at `b = -3 * 2^64`, `c = -5`, both negative.  On a fresh library state the
call `zlsb(u)` reads outside the buffer of `u`, so no result, negative or not, is defined;
with a stale limb in the buffer of `u` the subtraction loop does not end within the fuel.
The three scenarios of the specification, on single-limb operands, come out as stated. -/
theorem zgcd_sign_multi_limb_fails :
    Canonical ⟨-1, 2, 2, some [0, 3]⟩ ∧ Canonical (small (-1) 5) ∧
    outcome (zgcd true 60 (heapOf ⟨-1, 2, 2, some [0, 3]⟩ (small (-1) 5)) 2 3 4) 2
      = Result.undefined ∧
    outcome (zgcd false 60 (heapOf ⟨-1, 2, 2, some [0, 3]⟩ (small (-1) 5)) 2 3 4) 2
      = Result.undefined ∧
    outcome (zgcd true 60 (heapStale ⟨-1, 2, 2, some [0, 3]⟩ (small (-1) 5)) 2 3 4) 2
      = Result.timeout ∧
    outcome (zgcd true 60 (heapOf (small 1 48) (small 1 18)) 2 3 4) 2 = Result.ok (6, 1, 1) ∧
    outcome (zgcd true 60 (heapOf (small (-1) 48) (small (-1) 18)) 2 3 4) 2
      = Result.ok (-6, -1, 1) ∧
    outcome (zgcd true 60 (heapOf (small 1 48) (small (-1) 18)) 2 3 4) 2
      = Result.ok (6, 1, 1) := by
  decide

/-! ## `zinit`, `zseti`, `ZAHL_ADD_CTZ` and the subtraction in the loop -/

/-- C17, the claim fails: `zinit` on a record whose prior content has `used = 5` leaves
`used = 5` above the capacity 0. -/
theorem zinit_keeps_used :
    (zinit ⟨1, 5, 8, some [1, 2, 3, 4, 5, 0, 0, 0]⟩).alloced = 0 ∧
    (zinit ⟨1, 5, 8, some [1, 2, 3, 4, 5, 0, 0, 0]⟩).chars = none ∧
    (zinit ⟨1, 5, 8, some [1, 2, 3, 4, 5, 0, 0, 0]⟩).used = 5 ∧
    ¬ (zinit ⟨1, 5, 8, some [1, 2, 3, 4, 5, 0, 0, 0]⟩).used ≤
      (zinit ⟨1, 5, 8, some [1, 2, 3, 4, 5, 0, 0, 0]⟩).alloced ∧
    ¬ Valid (zinit ⟨1, 5, 8, some [1, 2, 3, 4, 5, 0, 0, 0]⟩) := by
  decide

/-- C17 as amended: for every prior content, after `zinit(a)` the capacity is 0 and there
is no backing storage; `sign` and `used` keep their prior contents, so `used ≤ capacity`
holds exactly when `used` was 0 before. -/
theorem zinit_spec (a : Zahl) :
    (zinit a).alloced = 0 ∧ (zinit a).chars = none ∧ (zinit a).buf = [] ∧
    (zinit a).used = a.used ∧ (zinit a).sign = a.sign ∧
    ((zinit a).used ≤ (zinit a).alloced ↔ a.used = 0) ∧
    (Valid (zinit a) ↔ a.used = 0) := by
  refine ⟨rfl, rfl, rfl, rfl, rfl, ?_, ?_⟩
  · show a.used ≤ 0 ↔ a.used = 0
    omega
  · unfold Valid
    show ((∀ x ∈ ([] : List Nat), x < 2 ^ 64) ∧ 0 = ([] : List Nat).length ∧ a.used ≤ 0 ∧
      a.used * 64 < 2 ^ 64) ↔ a.used = 0
    constructor
    · intro h; omega
    · intro h
      rw [h]
      simp

theorem to_uint64_of_nonneg (b : Int) (h0 : 0 ≤ b) (h1 : b < 2 ^ 63) :
    (to_uint64 b : Int) = b := by
  unfold to_uint64
  rw [Int.emod_eq_of_lt h0 (by omega)]
  exact Int.toNat_of_nonneg h0

theorem to_uint64_neg (b : Int) (h0 : -2 ^ 63 ≤ b) (h1 : b < 0) :
    (to_uint64 (neg_int64 b) : Int) = -b := by
  unfold to_uint64 neg_int64
  have h2 : ((-b + 2 ^ 63) % 2 ^ 64 - 2 ^ 63) % 2 ^ 64 = -b := by
    omega
  rw [h2]
  exact Int.toNat_of_nonneg (by omega)

/-- C12: for every `int64_t` value `b`, also 0 and `-2^63` (whose negation wraps to
itself), `zseti(a, b)` leaves `a` representing exactly `b` and touches no other object. -/
theorem zseti_value (h : Heap) (a : Ptr) (b : Int) (hlo : -2 ^ 63 ≤ b) (hhi : b < 2 ^ 63) :
    ((zseti h a b) a).value = b ∧ ∀ p, p ≠ a → (zseti h a b) p = h p := by
  by_cases hb : b ≥ 0
  · constructor
    · simp only [zseti, hb, if_true, zsetu, Heap.set_same, store_value]
      rw [to_uint64_of_nonneg b hb hhi]; simp
    · intro p hp
      simp only [zseti, hb, if_true, zsetu]
      exact Heap.set_other _ _ _ _ hp
  · constructor
    · simp only [zseti, hb, if_false, zsetu, Heap.set_same]
      unfold Zahl.value
      show (-1 : Int) * ((Zahl.mag { store (h a) 1 (to_uint64 (neg_int64 b)) with sign := -1 } : Nat) : Int) = b
      have hm : Zahl.mag { store (h a) 1 (to_uint64 (neg_int64 b)) with sign := -1 } =
          to_uint64 (neg_int64 b) := store_mag (h a) 1 _
      rw [hm, to_uint64_neg b hlo (by omega)]
      omega
    · intro p hp
      simp only [zseti, hb, if_false, zsetu]
      rw [Heap.set_other _ _ _ _ hp, Heap.set_other _ _ _ _ hp]

/-- The call `zseti(a, INT64_MIN)`. -/
theorem zseti_value_witness :
    (-2 ^ 63 : Int) ≤ -2 ^ 63 ∧ (-2 ^ 63 : Int) < 2 ^ 63 ∧
    ((zseti (heapOf zeroZahl zeroZahl) 2 (-2 ^ 63)) 2).value = -2 ^ 63 ∧
    ∀ p, p ≠ 2 → (zseti (heapOf zeroZahl zeroZahl) 2 (-2 ^ 63)) p = heapOf zeroZahl zeroZahl p :=
  ⟨by decide, by decide,
    zseti_value (heapOf zeroZahl zeroZahl) 2 (-2 ^ 63) (by decide) (by decide)⟩

/-- C20: the two definitions of `ZAHL_ADD_CTZ` at `x = 2` and at `x = 7`.  The builtin adds
the number of trailing zero bits (1 and 0); the portable loop tests `zahl_x__ & 1` without
inverting `x` and adds the number of trailing one bits (0 and 3). -/
theorem add_ctz_definitions_differ :
    ZAHL_ADD_CTZ_gnuc 0 2 = Result.ok 1 ∧ ZAHL_ADD_CTZ_portable 0 2 = 0 ∧
    ZAHL_ADD_CTZ_gnuc 5 7 = Result.ok 5 ∧ ZAHL_ADD_CTZ_portable 5 7 = 8 := by
  decide

/-- C15: whenever the loop body reaches `zsub_unsigned(v, v, u)`, whatever the store at
the start of the body and whatever `zlsb(v)` returned, the magnitude of `v` is at least
the magnitude of `u`, and the subtraction is defined. -/
theorem zsub_unsigned_precondition (gnuc : Bool) (fuel : Nat) (h : Heap) :
    gcdLoop gnuc (fuel + 1) h =
      ((zlsb gnuc (h libzahl_tmp_gcd_v)).bind fun n =>
        (zsub_unsigned (beforeSub h n)
          libzahl_tmp_gcd_v libzahl_tmp_gcd_v libzahl_tmp_gcd_u).bind fun h =>
            if zzero (h libzahl_tmp_gcd_v) then Result.ok h else gcdLoop gnuc fuel h) ∧
    ∀ n, ((beforeSub h n) libzahl_tmp_gcd_u).mag ≤ ((beforeSub h n) libzahl_tmp_gcd_v).mag ∧
      ∃ r, zsub_unsigned (beforeSub h n)
        libzahl_tmp_gcd_v libzahl_tmp_gcd_v libzahl_tmp_gcd_u = Result.ok r := by
  refine ⟨rfl, fun n => ?_⟩
  have hle : ((beforeSub h n) libzahl_tmp_gcd_u).mag ≤
      ((beforeSub h n) libzahl_tmp_gcd_v).mag := by
    unfold beforeSub
    by_cases hc : zcmpmag ((zrsh h libzahl_tmp_gcd_v libzahl_tmp_gcd_v n) libzahl_tmp_gcd_u)
        ((zrsh h libzahl_tmp_gcd_v libzahl_tmp_gcd_v n) libzahl_tmp_gcd_v) > 0
    · simp only [hc, if_true]
      rw [zswap_left, zswap_right]
      have := (zcmpmag_pos_iff _ _).1 hc
      omega
    · simp only [hc, if_false]
      have := (zcmpmag_pos_iff _ _).not.1 hc
      omega
  refine ⟨hle, (beforeSub h n).set libzahl_tmp_gcd_v
    (store ((beforeSub h n) libzahl_tmp_gcd_v) 1
      (((beforeSub h n) libzahl_tmp_gcd_v).mag - ((beforeSub h n) libzahl_tmp_gcd_u).mag)), ?_⟩
  unfold zsub_unsigned
  rw [if_neg (by omega)]

/-! ## Limbs of a stored magnitude, and `zabs` -/

theorem toLimbsAux_fuel (n1 n2 k : Nat) (h1 : k ≤ n1) (h2 : k ≤ n2) :
    toLimbsAux n1 k = toLimbsAux n2 k := by
  induction n1 generalizing n2 k with
  | zero =>
    have : k = 0 := by omega
    subst this
    rw [toLimbsAux_zero, toLimbsAux_zero]
  | succ n1 ih =>
    by_cases hk : k = 0
    · subst hk
      rw [toLimbsAux_zero, toLimbsAux_zero]
    · obtain ⟨m, rfl⟩ : ∃ m, n2 = m + 1 := ⟨n2 - 1, by omega⟩
      have hdiv : k / 2 ^ 64 < k := Nat.div_lt_self (Nat.pos_of_ne_zero hk) (by norm_num)
      simp only [toLimbsAux, hk, if_false]
      rw [ih m (k / 2 ^ 64) (by omega) (by omega)]

theorem toLimbs_cons (x m : Nat) (hx : x < 2 ^ 64) (hm : m ≠ 0) :
    toLimbs (x + 2 ^ 64 * m) = x :: toLimbs m := by
  have hne : x + 2 ^ 64 * m ≠ 0 := by
    have : 0 < 2 ^ 64 * m := Nat.mul_pos (by norm_num) (Nat.pos_of_ne_zero hm)
    omega
  obtain ⟨n, hn⟩ := Nat.exists_eq_succ_of_ne_zero hne
  have hmod : (x + 2 ^ 64 * m) % 2 ^ 64 = x := by
    rw [Nat.add_mul_mod_self_left]
    exact Nat.mod_eq_of_lt hx
  have hdiv : (x + 2 ^ 64 * m) / 2 ^ 64 = m := by
    rw [Nat.add_mul_div_left _ _ (by norm_num : 0 < 2 ^ 64), Nat.div_eq_of_lt hx, Nat.zero_add]
  have hle : m ≤ n := by
    have : m < x + 2 ^ 64 * m := by
      have : 2 * m ≤ 2 ^ 64 * m := Nat.mul_le_mul_right m (by norm_num)
      omega
    omega
  unfold toLimbs
  have hstep : toLimbsAux (x + 2 ^ 64 * m) (x + 2 ^ 64 * m) =
      ((x + 2 ^ 64 * m) % 2 ^ 64) :: toLimbsAux n ((x + 2 ^ 64 * m) / 2 ^ 64) := by
    conv_lhs => rw [hn]
    rw [Nat.succ_eq_add_one]
    conv_lhs => simp only [toLimbsAux]
    rw [← Nat.succ_eq_add_one, ← hn, if_neg hne]
  rw [hstep, hmod, hdiv, toLimbsAux_fuel n m m hle (le_refl m)]

/-- Writing back the value of a limb sequence without a zero top limb gives the same
limbs. -/
theorem toLimbs_limbsVal (l : List Nat) (hl : ∀ x ∈ l, x < 2 ^ 64)
    (htop : ∀ hne : l ≠ [], l.getLast hne ≠ 0) : toLimbs (limbsVal l) = l := by
  induction l with
  | nil => rfl
  | cons x xs ih =>
    have hx : x < 2 ^ 64 := hl x (List.mem_cons_self _ _)
    by_cases hxs : xs = []
    · subst hxs
      have hx0 : x ≠ 0 := by
        have := htop (List.cons_ne_nil _ _)
        simpa using this
      show toLimbs (x + 2 ^ 64 * 0) = [x]
      rw [Nat.mul_zero, Nat.add_zero]
      exact toLimbs_single x (Nat.pos_of_ne_zero hx0) hx
    · have ih' := ih (fun y hy => hl y (List.mem_cons_of_mem _ hy)) (fun hne => by
        have := htop (List.cons_ne_nil _ _)
        rwa [List.getLast_cons hne] at this)
      have hm : limbsVal xs ≠ 0 := by
        intro h0
        rw [h0] at ih'
        exact hxs ih'.symm
      show toLimbs (x + 2 ^ 64 * limbsVal xs) = x :: xs
      rw [toLimbs_cons x _ hx hm, ih']

theorem Canonical.toLimbs_mag (a : Zahl) (ha : Canonical a) :
    toLimbs a.mag = a.buf.take a.used := by
  obtain ⟨⟨hlimb, hal, hua, _⟩, _, _, htop⟩ := ha
  unfold Zahl.mag
  apply toLimbs_limbsVal
  · intro x hx
    exact hlimb x (List.mem_of_mem_take hx)
  · intro hne
    have hu : a.used ≠ 0 := by
      intro h0
      apply hne
      rw [h0]; rfl
    obtain ⟨k, hk⟩ := Nat.exists_eq_succ_of_ne_zero hu
    have hk2 : k < a.buf.length := by omega
    have h1 := htop (by omega)
    rw [hk, Nat.succ_eq_add_one, Nat.add_sub_cancel] at h1
    have h2 : a.buf.take a.used = a.buf.take k ++ [a.buf.getD k 0] := by
      rw [hk]; exact take_succ_eq _ _ hk2
    have h3 : ∀ (l : List Nat) (hl : l ≠ []), l = a.buf.take k ++ [a.buf.getD k 0] →
        l.getLast hl = a.buf.getD k 0 := by
      intro l hl e
      subst e
      exact List.getLast_append_singleton _
    rw [h3 _ hne h2]
    exact h1

theorem Canonical.toLimbs_length (a : Zahl) (ha : Canonical a) :
    (toLimbs a.mag).length = a.used := by
  rw [Canonical.toLimbs_mag a ha, List.length_take]
  have := ha.1.2.1
  have := ha.1.2.2.1
  omega

theorem zabs_apply (h : Heap) (a b : Ptr) :
    (zabs h a b) a =
      { (if a ≠ b then store (h a) (h b).sign (h b).mag else h a) with
        sign := if (if a ≠ b then store (h a) (h b).sign (h b).mag else h a).sign ≠ 0
          then 1 else 0 } := by
  by_cases hab : a = b
  · subst hab; simp [zabs]
  · simp [zabs, zset, hab]

theorem zabs_other (h : Heap) (a b p : Ptr) (hp : p ≠ a) : (zabs h a b) p = h p := by
  by_cases hab : a = b
  · subst hab
    simp only [zabs, ne_eq, not_true_eq_false, if_false]
    exact Heap.set_other _ _ _ _ hp
  · simp only [zabs, ne_eq, hab, not_false_eq_true, if_true, zset]
    rw [Heap.set_other _ _ _ _ hp, Heap.set_other _ _ _ _ hp]

/-- What `zabs(a, b)` leaves at `a` for a canonical `b`. -/
theorem zabs_facts (h : Heap) (a b : Ptr) (hb : Canonical (h b)) :
    ((zabs h a b) a).sign = (if (h b).sign = 0 then 0 else 1) ∧
    ((zabs h a b) a).used = (h b).used ∧
    ((zabs h a b) a).buf.take ((zabs h a b) a).used = (h b).buf.take (h b).used ∧
    ((zabs h a b) a).mag = (h b).mag ∧
    ((zabs h a b) a).value = |(h b).value| ∧
    (∀ p, p ≠ a → (zabs h a b) p = h p) ∧
    zabs (zabs h a b) a a = zabs h a b := by
  have hsign : ((zabs h a b) a).sign = (if (h b).sign = 0 then 0 else 1) := by
    rw [zabs_apply]
    by_cases hab : a = b
    · subst hab
      by_cases hs : (h a).sign = 0 <;> simp [hs]
    · have hm := Canonical.mag_eq_zero_iff _ hb
      by_cases hs : (h b).sign = 0
      · simp [hab, store_sign, hs, hm.2 hs]
      · have : (h b).mag ≠ 0 := fun e => hs (hm.1 e)
        simp [hab, store_sign, hs, this]
  have hused : ((zabs h a b) a).used = (h b).used := by
    rw [zabs_apply]
    by_cases hab : a = b
    · subst hab; simp
    · simp only [ne_eq, hab, not_false_eq_true, if_true]
      exact Canonical.toLimbs_length _ hb
  have hlimbs : ((zabs h a b) a).buf.take ((zabs h a b) a).used =
      (h b).buf.take (h b).used := by
    rw [hused, zabs_apply]
    by_cases hab : a = b
    · subst hab; simp [Zahl.buf]
    · simp only [ne_eq, hab, not_false_eq_true, if_true]
      show List.take (h b).used (store (h a) (h b).sign (h b).mag).buf = _
      rw [store_buf]
      conv_lhs => rw [← Canonical.toLimbs_length _ hb]
      rw [List.take_left, Canonical.toLimbs_mag _ hb]
  have hmag : ((zabs h a b) a).mag = (h b).mag := by
    unfold Zahl.mag
    rw [hlimbs]
  refine ⟨hsign, hused, hlimbs, hmag, ?_, fun p hp => zabs_other h a b p hp, ?_⟩
  · unfold Zahl.value
    rw [hsign, hmag]
    rcases hb.2.1 with hs | hs | hs <;> simp [hs, abs_mul]
  · funext p
    by_cases hp : p = a
    · subst hp
      rw [zabs_apply (zabs h p b) p p]
      simp only [ne_eq, not_true_eq_false, if_false]
      have h1 : ((zabs h p b) p).sign = 0 ∨ ((zabs h p b) p).sign = 1 := by
        rw [hsign]
        by_cases hs : (h b).sign = 0 <;> simp [hs]
      rcases h1 with h1 | h1 <;> rw [h1] <;> simp <;> rw [← h1]
    · rw [zabs_other _ _ _ _ hp]

/-- C11: for a canonical `b`, `zabs(a, b)` leaves in `a` the magnitude of `b` (the same
`used` and the same limbs below `used`) with sign 1 for a nonzero `b` and 0 for zero, so
`a` represents `|b|`; this holds also when `a` is the object `b`, no other object is
touched, and `zabs` applied to its own result changes nothing. -/
theorem zabs_spec (h : Heap) (a b : Ptr) (hb : Canonical (h b)) :
    ((zabs h a b) a).sign = (if (h b).sign = 0 then 0 else 1) ∧
    ((zabs h a b) a).used = (h b).used ∧
    ((zabs h a b) a).buf.take ((zabs h a b) a).used = (h b).buf.take (h b).used ∧
    ((zabs h a b) a).mag = (h b).mag ∧
    ((zabs h a b) a).value = |(h b).value| ∧
    (∀ p, p ≠ a → (zabs h a b) p = h p) ∧
    zabs (zabs h a b) a a = zabs h a b := by
  exact zabs_facts h a b hb

/-- The calls `zabs(a, -5)` into another object and `zabs(x, x)` in place. -/
theorem zabs_spec_witness :
    Canonical (heapOf (small (-1) 5) zeroZahl 3) ∧
    ((zabs (heapOf (small (-1) 5) zeroZahl) 3 3) 3).sign =
      (if (heapOf (small (-1) 5) zeroZahl 3).sign = 0 then 0 else 1) ∧
    ((zabs (heapOf (small (-1) 5) zeroZahl) 3 3) 3).used =
      (heapOf (small (-1) 5) zeroZahl 3).used ∧
    ((zabs (heapOf (small (-1) 5) zeroZahl) 3 3) 3).buf.take
        ((zabs (heapOf (small (-1) 5) zeroZahl) 3 3) 3).used =
      (heapOf (small (-1) 5) zeroZahl 3).buf.take (heapOf (small (-1) 5) zeroZahl 3).used ∧
    ((zabs (heapOf (small (-1) 5) zeroZahl) 3 3) 3).mag =
      (heapOf (small (-1) 5) zeroZahl 3).mag ∧
    ((zabs (heapOf (small (-1) 5) zeroZahl) 3 3) 3).value =
      |(heapOf (small (-1) 5) zeroZahl 3).value| ∧
    (∀ p, p ≠ 3 → (zabs (heapOf (small (-1) 5) zeroZahl) 3 3) p =
      heapOf (small (-1) 5) zeroZahl p) ∧
    zabs (zabs (heapOf (small (-1) 5) zeroZahl) 3 3) 3 3 =
      zabs (heapOf (small (-1) 5) zeroZahl) 3 3 :=
  ⟨by decide, zabs_spec (heapOf (small (-1) 5) zeroZahl) 3 3 (by decide)⟩

/-! ## The scan for the common trailing zeros, on operands of any length -/

theorem limbsVal_digit (l : List Nat) (hl : ∀ x ∈ l, x < 2 ^ 64) (i : Nat) :
    limbsVal l / 2 ^ (64 * i) % 2 ^ 64 = l.getD i 0 := by
  induction l generalizing i with
  | nil => simp [limbsVal]
  | cons x xs ih =>
    have hx : x < 2 ^ 64 := hl x (List.mem_cons_self _ _)
    have hxs := ih (fun y hy => hl y (List.mem_cons_of_mem _ hy))
    cases i with
    | zero =>
      show (x + 2 ^ 64 * limbsVal xs) / 2 ^ (64 * 0) % 2 ^ 64 = x
      rw [Nat.mul_zero, pow_zero, Nat.div_one, Nat.add_mul_mod_self_left]
      exact Nat.mod_eq_of_lt hx
    | succ i =>
      show (x + 2 ^ 64 * limbsVal xs) / 2 ^ (64 * (i + 1)) % 2 ^ 64 = xs.getD i 0
      rw [show 64 * (i + 1) = 64 + 64 * i by ring, pow_add, ← Nat.div_div_eq_div_mul,
        Nat.add_mul_div_left _ _ (by norm_num : 0 < 2 ^ 64), Nat.div_eq_of_lt hx,
        Nat.zero_add]
      exact hxs i

theorem Holds.mag_lt {z : Zahl} {m : Nat} (hz : Holds z m) : m < 2 ^ (64 * z.used) := by
  obtain ⟨hm, hu, hl, _⟩ := hz
  rw [← hm]
  have := limbsVal_lt (z.buf.take z.used) hl
  rwa [List.length_take, Nat.min_eq_left hu] at this

theorem Holds.limbOrZero_eq {z : Zahl} {m : Nat} (hz : Holds z m) (i : Nat) :
    limbOrZero z i = Result.ok (m / 2 ^ (64 * i) % 2 ^ 64) := by
  obtain ⟨hm, hu, hl, _⟩ := hz
  rw [← hm]
  unfold Zahl.mag
  rw [limbsVal_digit _ hl i]
  unfold limbOrZero
  by_cases hi : i < z.used
  · rw [if_pos hi, rd_eq z i (by omega)]
    congr 1
    rw [List.getD_eq_getElem?_getD, List.getD_eq_getElem?_getD, List.getElem?_take_of_lt hi]
  · rw [if_neg hi]
    congr 1
    rw [List.getD_eq_getElem?_getD, List.getElem?_take, if_neg hi]
    rfl

theorem bitScan_offset (s0 n uv bit k : Nat) (hk : s0 + k + n < 2 ^ 64) :
    bitScan n uv bit (s0 + k) = ((bitScan n uv bit k).1, s0 + (bitScan n uv bit k).2) := by
  induction n generalizing bit k with
  | zero => rfl
  | succ n ih =>
    rw [bitScan_succ, bitScan_succ]
    by_cases hb : bit = 0
    · simp [hb]
    · rw [if_neg hb, if_neg hb]
      by_cases hu : uv &&& bit ≠ 0
      · rw [if_pos hu, if_pos hu]
      · rw [if_neg hu, if_neg hu]
        have h1 : size_t (s0 + k + 1) = s0 + (k + 1) := by
          unfold size_t; rw [Nat.mod_eq_of_lt (by omega)]; omega
        have h2 : size_t (k + 1) = k + 1 := by
          unfold size_t; exact Nat.mod_eq_of_lt (by omega)
        rw [h1, h2]
        exact ih _ (k + 1) (by omega)

theorem or_eq_zero (x y : Nat) (h : x ||| y = 0) : x = 0 ∧ y = 0 := by
  constructor
  · by_contra hx
    exact or_ne_zero_left x y hx h
  · by_contra hy
    rw [Nat.or_comm] at h
    exact or_ne_zero_left y x hy h

theorem dvd_of_dvd_mod_limb (q t : Nat) (ht : t ≤ 64) (h : 2 ^ t ∣ q % 2 ^ 64) : 2 ^ t ∣ q :=
  (Nat.dvd_mod_iff (Nat.pow_dvd_pow 2 ht)).1 h

theorem two_pow_mul_dvd (B i t : Nat) (hB : 2 ^ (64 * i) ∣ B) (ht : 2 ^ t ∣ B / 2 ^ (64 * i)) :
    2 ^ (64 * i + t) ∣ B := by
  rw [pow_add]
  have := Nat.mul_dvd_mul_left (2 ^ (64 * i)) ht
  rwa [Nat.mul_div_cancel' hB] at this

theorem dvd_div_of_two_pow (B i t : Nat) (hB : 2 ^ (64 * i) ∣ B) (h : 2 ^ (64 * i + t) ∣ B) :
    2 ^ t ∣ B / 2 ^ (64 * i) := by
  rw [pow_add] at h
  have h2 : 2 ^ (64 * i) * 2 ^ t ∣ 2 ^ (64 * i) * (B / 2 ^ (64 * i)) := by
    rwa [Nat.mul_div_cancel' hB]
  exact (Nat.mul_dvd_mul_iff_left (by positivity)).1 h2

/-- The scan of `zgcd`, entered at limb `i` with `shifts = 64 * i` when the limbs below `i`
of both operands are zero, stops at the lowest bit set in either operand. -/
theorem commonShift_spec (u v : Zahl) (B C : Nat) (hu : Holds u B) (hv : Holds v C)
    (hB : B ≠ 0) (fuel : Nat) :
    ∀ i, 2 ^ (64 * i) ∣ B → 2 ^ (64 * i) ∣ C → u.used ≤ i + fuel →
      ∃ s, commonShift fuel u v i (64 * i) = Result.ok s ∧ 2 ^ s ∣ B ∧ 2 ^ s ∣ C ∧
        ¬ (2 ^ (s + 1) ∣ B ∧ 2 ^ (s + 1) ∣ C) := by
  induction fuel with
  | zero =>
    intro i hiB _ hf
    exfalso
    have h1 := Nat.le_of_dvd (Nat.pos_of_ne_zero hB) hiB
    have h2 := Holds.mag_lt hu
    have h3 : 2 ^ (64 * u.used) ≤ 2 ^ (64 * i) := Nat.pow_le_pow_right (by norm_num) (by omega)
    omega
  | succ fuel ih =>
    intro i hiB hiC hf
    have hiu : i < u.used := by
      by_contra hcon
      have h1 := Nat.le_of_dvd (Nat.pos_of_ne_zero hB) hiB
      have h2 := Holds.mag_lt hu
      have h3 : 2 ^ (64 * u.used) ≤ 2 ^ (64 * i) :=
        Nat.pow_le_pow_right (by norm_num) (by omega)
      omega
    have hsz := hu.2.2.2
    have hx := Holds.limbOrZero_eq hu i
    have hy := Holds.limbOrZero_eq hv i
    have hxlt : B / 2 ^ (64 * i) % 2 ^ 64 < 2 ^ 64 := Nat.mod_lt _ (by norm_num)
    have hylt : C / 2 ^ (64 * i) % 2 ^ 64 < 2 ^ 64 := Nat.mod_lt _ (by norm_num)
    have hoff := bitScan_offset (64 * i) 65
      (B / 2 ^ (64 * i) % 2 ^ 64 ||| C / 2 ^ (64 * i) % 2 ^ 64) 1 0 (by omega)
    rw [Nat.add_zero] at hoff
    have hstep : commonShift (fuel + 1) u v i (64 * i) =
        match bitScan 65 (B / 2 ^ (64 * i) % 2 ^ 64 ||| C / 2 ^ (64 * i) % 2 ^ 64) 1 (64 * i) with
        | (true, s) => Result.ok s
        | (false, s) => commonShift fuel u v (size_t (i + 1)) s := by
      show ((limbOrZero u i).bind fun x => (limbOrZero v i).bind fun y =>
        match bitScan 65 (x ||| y) 1 (64 * i) with
        | (true, s) => Result.ok s
        | (false, s) => commonShift fuel u v (size_t (i + 1)) s) = _
      rw [hx, Result.bind_ok, hy, Result.bind_ok]
    by_cases hz : B / 2 ^ (64 * i) % 2 ^ 64 ||| C / 2 ^ (64 * i) % 2 ^ 64 = 0
    · obtain ⟨hx0, hy0⟩ := or_eq_zero _ _ hz
      have hB' : 2 ^ (64 * (i + 1)) ∣ B := by
        rw [show 64 * (i + 1) = 64 * i + 64 by ring]
        exact two_pow_mul_dvd B i 64 hiB (Nat.dvd_of_mod_eq_zero hx0)
      have hC' : 2 ^ (64 * (i + 1)) ∣ C := by
        rw [show 64 * (i + 1) = 64 * i + 64 by ring]
        exact two_pow_mul_dvd C i 64 hiC (Nat.dvd_of_mod_eq_zero hy0)
      have hscan : bitScan 65 0 1 0 = (false, 64) := by decide
      have hi1 : size_t (i + 1) = i + 1 := by
        unfold size_t; exact Nat.mod_eq_of_lt (by omega)
      rw [hstep, hoff, hz, hscan]
      show ∃ s, commonShift fuel u v (size_t (i + 1)) (64 * i + 64) = Result.ok s ∧ _
      rw [hi1, show 64 * i + 64 = 64 * (i + 1) by ring]
      exact ih (i + 1) hB' hC' (by omega)
    · obtain ⟨t, h1, _, h3, h4, h5⟩ := bitScan_spec 65 0 _ (Nat.or_lt_two_pow hxlt hylt) hz
        (fun j hj => absurd hj (Nat.not_lt_zero j)) (by norm_num)
      have h1' : bitScan 65 (B / 2 ^ (64 * i) % 2 ^ 64 ||| C / 2 ^ (64 * i) % 2 ^ 64) 1 0 =
          (true, t) := by
        have : (2 : Nat) ^ 0 % 2 ^ 64 = 1 := by norm_num
        rw [this] at h1; exact h1
      rw [hstep, hoff, h1']
      refine ⟨64 * i + t, rfl, ?_, ?_, ?_⟩
      · apply two_pow_mul_dvd B i t hiB
        apply dvd_of_dvd_mod_limb _ _ (by omega)
        apply Nat.dvd_of_mod_eq_zero
        rw [mod_two_pow_eq_zero_iff]
        intro j hj
        have := h4 j hj
        rw [Nat.testBit_or] at this
        simp at this
        exact this.1
      · apply two_pow_mul_dvd C i t hiC
        apply dvd_of_dvd_mod_limb _ _ (by omega)
        apply Nat.dvd_of_mod_eq_zero
        rw [mod_two_pow_eq_zero_iff]
        intro j hj
        have := h4 j hj
        rw [Nat.testBit_or] at this
        simp at this
        exact this.2
      · rintro ⟨hb1, hc1⟩
        have hb2 := dvd_div_of_two_pow B i (t + 1) hiB hb1
        have hc2 := dvd_div_of_two_pow C i (t + 1) hiC hc1
        have hb3 : 2 ^ (t + 1) ∣ B / 2 ^ (64 * i) % 2 ^ 64 :=
          (Nat.dvd_mod_iff (Nat.pow_dvd_pow 2 (by omega))).2 hb2
        have hc3 : 2 ^ (t + 1) ∣ C / 2 ^ (64 * i) % 2 ^ 64 :=
          (Nat.dvd_mod_iff (Nat.pow_dvd_pow 2 (by omega))).2 hc2
        have hb4 := (mod_two_pow_eq_zero_iff _ _).1 (Nat.mod_eq_zero_of_dvd hb3) t (by omega)
        have hc4 := (mod_two_pow_eq_zero_iff _ _).1 (Nat.mod_eq_zero_of_dvd hc3) t (by omega)
        rw [Nat.testBit_or, hb4, hc4] at h5
        simp at h5

/-! ## The value of `shifts` at `loop_done` -/

theorem zabs_holds (h : Heap) (t b : Ptr) (hb : Canonical (h b)) :
    Holds ((zabs h t b) t) (h b).mag := by
  obtain ⟨_, hused, htake, hmag, _, _, _⟩ := zabs_facts h t b hb
  obtain ⟨⟨hlimb, hal, hua, hsz⟩, _, _, _⟩ := hb
  refine ⟨hmag, ?_, ?_, by rw [hused]; exact hsz⟩
  · have h1 := congrArg List.length htake
    rw [List.length_take, List.length_take, hused] at h1
    have : (h b).used ≤ (h b).buf.length := by omega
    omega
  · intro x hx
    rw [htake] at hx
    exact hlimb x (List.mem_of_mem_take hx)

/-- The main path of `zgcd` written with `shiftsAtLoopDone`. -/
theorem zgcd_main_path_shifts (gnuc : Bool) (fuel : Nat) (h : Heap) (a b c : Ptr)
    (hcmp : zcmp (h b) (h c) ≠ 0) (hb : zzero (h b) = false) (hc : zzero (h c) = false) :
    zgcd gnuc fuel h a b c =
      (shiftsAtLoopDone fuel h b c).bind
      fun shifts =>
        (zlsb gnuc ((zrsh (zrsh (zabs (zabs h libzahl_tmp_gcd_u b) libzahl_tmp_gcd_v c)
          libzahl_tmp_gcd_u libzahl_tmp_gcd_u shifts)
          libzahl_tmp_gcd_v libzahl_tmp_gcd_v shifts) libzahl_tmp_gcd_u)).bind fun n =>
          (gcdLoop gnuc fuel (zrsh (zrsh (zrsh
            (zabs (zabs h libzahl_tmp_gcd_u b) libzahl_tmp_gcd_v c)
            libzahl_tmp_gcd_u libzahl_tmp_gcd_u shifts)
            libzahl_tmp_gcd_v libzahl_tmp_gcd_v shifts)
            libzahl_tmp_gcd_u libzahl_tmp_gcd_u n)).bind fun r =>
            Result.ok ((zlsh r a libzahl_tmp_gcd_u shifts).set a
              (ZAHL_SET_SIGNUM ((zlsh r a libzahl_tmp_gcd_u shifts) a)
                (if (decide (zsignum
                    ((zabs (zabs h libzahl_tmp_gcd_u b) libzahl_tmp_gcd_v c) b) < 0) &&
                  decide (zsignum
                    ((zabs (zabs h libzahl_tmp_gcd_u b) libzahl_tmp_gcd_v c) c) < 0)) = true
                  then -1 else 1))) :=
  zgcd_main_path gnuc fuel h a b c hcmp hb hc

/-- The scan of `zgcd` on canonical nonzero operands of any length. -/
theorem shifts_facts (fuel : Nat) (h : Heap) (b c : Ptr)
    (hcu : c ≠ libzahl_tmp_gcd_u)
    (hb : Canonical (h b)) (hc : Canonical (h c))
    (hbs : (h b).sign ≠ 0) (hcs : (h c).sign ≠ 0) (hf : (h b).used ≤ fuel) :
    ∃ s, shiftsAtLoopDone fuel h b c = Result.ok s ∧
      s < 64 * (h b).used ∧ s < 64 * (h c).used ∧
      2 ^ s ∣ (h b).mag ∧ 2 ^ s ∣ (h c).mag ∧
      ∀ k, (2 ^ k ∣ (h b).mag ∧ 2 ^ k ∣ (h c).mag) ↔ k ≤ s := by
  have hB0 := Canonical.mag_pos _ hb hbs
  have hC0 := Canonical.mag_pos _ hc hcs
  have hu1 := zabs_holds h libzahl_tmp_gcd_u b hb
  have hc' : (zabs h libzahl_tmp_gcd_u b) c = h c := zabs_other _ _ _ _ hcu
  have hv2 := zabs_holds (zabs h libzahl_tmp_gcd_u b) libzahl_tmp_gcd_v c
    (by rw [hc']; exact hc)
  rw [hc'] at hv2
  have hu2 : Holds ((zabs (zabs h libzahl_tmp_gcd_u b) libzahl_tmp_gcd_v c)
      libzahl_tmp_gcd_u) (h b).mag := by
    rw [zabs_other _ _ _ _ tmp_u_ne_v]; exact hu1
  have hused : ((zabs (zabs h libzahl_tmp_gcd_u b) libzahl_tmp_gcd_v c)
      libzahl_tmp_gcd_u).used = (h b).used := by
    rw [zabs_other _ _ _ _ tmp_u_ne_v]
    exact (zabs_facts h libzahl_tmp_gcd_u b hb).2.1
  obtain ⟨s, h1, h2, h3, h4⟩ := commonShift_spec _ _ _ _ hu2 hv2 (by omega) fuel 0
    (by simp) (by simp) (by rw [hused]; omega)
  have hltB : s < 64 * (h b).used := by
    have h5 := Nat.le_of_dvd hB0 h2
    have h6 := Holds.mag_lt hu2
    rw [hused] at h6
    exact (Nat.pow_lt_pow_iff_right (by norm_num)).1 (lt_of_le_of_lt h5 h6)
  have hltC : s < 64 * (h c).used := by
    have h5 := Nat.le_of_dvd hC0 h3
    have h6 := Holds.mag_lt hv2
    have hvused : ((zabs (zabs h libzahl_tmp_gcd_u b) libzahl_tmp_gcd_v c)
        libzahl_tmp_gcd_v).used = (h c).used := by
      have := (zabs_facts (zabs h libzahl_tmp_gcd_u b) libzahl_tmp_gcd_v c
        (by rw [hc']; exact hc)).2.1
      rwa [hc'] at this
    rw [hvused] at h6
    exact (Nat.pow_lt_pow_iff_right (by norm_num)).1 (lt_of_le_of_lt h5 h6)
  refine ⟨s, h1, hltB, hltC, h2, h3, fun k => ⟨fun hk => ?_, fun hk => ?_⟩⟩
  · by_contra hcon
    have hle : s + 1 ≤ k := by omega
    exact h4 ⟨dvd_trans (Nat.pow_dvd_pow 2 hle) hk.1, dvd_trans (Nat.pow_dvd_pow 2 hle) hk.2⟩
  · exact ⟨dvd_trans (Nat.pow_dvd_pow 2 hk) h2, dvd_trans (Nat.pow_dvd_pow 2 hk) h3⟩

/-- C14: for canonical nonzero operands `b` and `c` (of any number of limbs; `c` is not
the temporary `u`) and fuel of at least `used` of `b`, the scan of `zgcd` ends, and
`shifts` at `loop_done` is the largest `k` with `2^k` dividing both `|b|` and `|c|`,
that is the smaller of the two counts of trailing zero bits; it lies below `64 * used`
of either operand. -/
theorem shifts_common_trailing_zeros (fuel : Nat) (h : Heap) (b c : Ptr)
    (hcu : c ≠ libzahl_tmp_gcd_u)
    (hb : Canonical (h b)) (hc : Canonical (h c))
    (hbs : (h b).sign ≠ 0) (hcs : (h c).sign ≠ 0) (hf : (h b).used ≤ fuel) :
    ∃ s, shiftsAtLoopDone fuel h b c = Result.ok s ∧
      s < 64 * (h b).used ∧ s < 64 * (h c).used ∧
      (∀ k, (2 ^ k ∣ (h b).value.natAbs ∧ 2 ^ k ∣ (h c).value.natAbs) ↔ k ≤ s) ∧
      s = min (padicValNat 2 (h b).value.natAbs) (padicValNat 2 (h c).value.natAbs) := by
  obtain ⟨s, h1, h2, h3, h4, h5, h6⟩ := shifts_facts fuel h b c hcu hb hc hbs hcs hf
  have hB0 : (h b).mag ≠ 0 := by have := Canonical.mag_pos _ hb hbs; omega
  have hC0 : (h c).mag ≠ 0 := by have := Canonical.mag_pos _ hc hcs; omega
  rw [Canonical.natAbs_value _ hb, Canonical.natAbs_value _ hc]
  refine ⟨s, h1, h2, h3, h6, ?_⟩
  apply le_antisymm
  · exact le_min ((padicValNat_dvd_iff_le hB0).1 h4) ((padicValNat_dvd_iff_le hC0).1 h5)
  · apply (h6 _).1
    exact ⟨(padicValNat_dvd_iff_le hB0).2 (min_le_left _ _),
      (padicValNat_dvd_iff_le hC0).2 (min_le_right _ _)⟩

/-- The operands `3 * 2^130` and `-10 * 2^192`: 130 common trailing zero bits, two whole
zero limbs among them. -/
theorem shifts_common_trailing_zeros_witness :
    (4 : Ptr) ≠ libzahl_tmp_gcd_u ∧
    Canonical (heapOf threeTwoPow130 ⟨-1, 4, 4, some [0, 0, 0, 10]⟩ 3) ∧
    Canonical (heapOf threeTwoPow130 ⟨-1, 4, 4, some [0, 0, 0, 10]⟩ 4) ∧
    ∃ s, shiftsAtLoopDone 3 (heapOf threeTwoPow130 ⟨-1, 4, 4, some [0, 0, 0, 10]⟩) 3 4
        = Result.ok s ∧
      s < 64 * (heapOf threeTwoPow130 ⟨-1, 4, 4, some [0, 0, 0, 10]⟩ 3).used ∧
      s < 64 * (heapOf threeTwoPow130 ⟨-1, 4, 4, some [0, 0, 0, 10]⟩ 4).used ∧
      (∀ k, (2 ^ k ∣ (heapOf threeTwoPow130 ⟨-1, 4, 4, some [0, 0, 0, 10]⟩ 3).value.natAbs ∧
        2 ^ k ∣ (heapOf threeTwoPow130 ⟨-1, 4, 4, some [0, 0, 0, 10]⟩ 4).value.natAbs)
          ↔ k ≤ s) ∧
      s = min
        (padicValNat 2 (heapOf threeTwoPow130 ⟨-1, 4, 4, some [0, 0, 0, 10]⟩ 3).value.natAbs)
        (padicValNat 2 (heapOf threeTwoPow130 ⟨-1, 4, 4, some [0, 0, 0, 10]⟩ 4).value.natAbs) :=
  ⟨by decide, by decide, by decide,
    shifts_common_trailing_zeros 3 (heapOf threeTwoPow130 ⟨-1, 4, 4, some [0, 0, 0, 10]⟩) 3 4
      (by decide) (by decide) (by decide) (by decide) (by decide) (by decide)⟩

/-! ## `zgcd` on operands with a zero lowest limb -/

set_option maxRecDepth 100000 in
/-- An earlier, fully defined call `zgcd(a, X, 3 * X)` on a fresh library state leaves the
temporaries as `heapAfter` has them: `u` holds `X`, `v` is zero with the limbs of `X`
still in its buffer, and `a` holds `X`. -/
theorem heapAfter_reachable :
    (zgcd true 10 (heapOf bigX bigX3) 2 3 4).map (fun h => (h 0, h 1, h 2)) =
      Result.ok (heapAfter zeroZahl zeroZahl 0, heapAfter zeroZahl zeroZahl 1,
        heapAfter zeroZahl zeroZahl 2) ∧
    (zgcd false 10 (heapOf bigX bigX3) 2 3 4).map (fun h => (h 0, h 1, h 2)) =
      Result.ok (heapAfter zeroZahl zeroZahl 0, heapAfter zeroZahl zeroZahl 1,
        heapAfter zeroZahl zeroZahl 2) := by
  decide

/-- With `u = 0` and an odd single-limb `v` the loop of `zgcd` never ends: each pass
leaves both unchanged. -/
theorem gcdLoop_stuck (gnuc : Bool) (y : Nat) (hy : y % 2 = 1) (fuel : Nat) :
    ∀ h : Heap, (h libzahl_tmp_gcd_u).mag = 0 → Single (h libzahl_tmp_gcd_v) y →
      gcdLoop gnuc fuel h = Result.timeout := by
  induction fuel with
  | zero => intro h _ _; rfl
  | succ fuel ih =>
    intro h hu hv
    have hd : 2 ^ 0 ∣ y := by simp
    obtain ⟨hv1, ho1⟩ := zrsh_single h libzahl_tmp_gcd_v 0 y hv hd
    rw [pow_zero, Nat.div_one] at hv1
    have hu1 : ((zrsh h libzahl_tmp_gcd_v libzahl_tmp_gcd_v 0) libzahl_tmp_gcd_u).mag = 0 := by
      rw [ho1 _ tmp_u_ne_v]; exact hu
    have hcmp : ¬ zcmpmag ((zrsh h libzahl_tmp_gcd_v libzahl_tmp_gcd_v 0) libzahl_tmp_gcd_u)
        ((zrsh h libzahl_tmp_gcd_v libzahl_tmp_gcd_v 0) libzahl_tmp_gcd_v) > 0 := by
      rw [gt_iff_lt, zcmpmag_pos_iff, hu1]
      omega
    have hsub : zsub_unsigned (zrsh h libzahl_tmp_gcd_v libzahl_tmp_gcd_v 0)
        libzahl_tmp_gcd_v libzahl_tmp_gcd_v libzahl_tmp_gcd_u =
        Result.ok ((zrsh h libzahl_tmp_gcd_v libzahl_tmp_gcd_v 0).set libzahl_tmp_gcd_v
          (store ((zrsh h libzahl_tmp_gcd_v libzahl_tmp_gcd_v 0) libzahl_tmp_gcd_v) 1 y)) := by
      unfold zsub_unsigned
      rw [hu1, Single.mag_eq hv1, if_neg (by omega), Nat.sub_zero]
    have hv3 := store_single ((zrsh h libzahl_tmp_gcd_v libzahl_tmp_gcd_v 0) libzahl_tmp_gcd_v)
      y hv.2.2.2.1 hv.2.2.2.2
    rw [gcdLoop_succ, zlsb_single gnuc _ y hv, Result.bind_ok, ctzBits_odd 63 y hy,
      if_neg hcmp, hsub, Result.bind_ok]
    have hz : zzero (((zrsh h libzahl_tmp_gcd_v libzahl_tmp_gcd_v 0).set libzahl_tmp_gcd_v
        (store ((zrsh h libzahl_tmp_gcd_v libzahl_tmp_gcd_v 0) libzahl_tmp_gcd_v) 1 y))
        libzahl_tmp_gcd_v) = false := by
      rw [Heap.set_same]
      simp [zzero, hv3.1]
    rw [hz]
    simp only [Bool.false_eq_true, if_false]
    apply ih
    · rw [Heap.set_other _ _ _ _ tmp_u_ne_v]; exact hu1
    · rw [Heap.set_same]; exact hv3

theorem commonShift_succ (fuel : Nat) (u v : Zahl) (i shifts : Nat) :
    commonShift (fuel + 1) u v i shifts =
      (limbOrZero u i).bind fun x =>
        (limbOrZero v i).bind fun y =>
          match bitScan 65 (x ||| y) 1 shifts with
          | (true, s) => Result.ok s
          | (false, s) => commonShift fuel u v (size_t (i + 1)) s := rfl

/-- The call `zgcd(a, 2^64, 1)` after the earlier call never returns, whatever the fuel:
`zlsb(u)` uses the stale limb 64 and returns 67, `u` becomes 0 and the loop keeps
subtracting 0 from `v = 1`. -/
theorem zgcd_after_never_ends (gnuc : Bool) (fuel : Nat) :
    zgcd gnuc fuel (heapAfter twoPow64 (small 1 1)) 2 3 4 = Result.timeout := by
  rw [zgcd_main_path gnuc fuel _ 2 3 4 (by decide) (by decide) (by decide)]
  cases fuel with
  | zero => rfl
  | succ fuel =>
    have hx : limbOrZero ((zabs (zabs (heapAfter twoPow64 (small 1 1)) libzahl_tmp_gcd_u 3)
        libzahl_tmp_gcd_v 4) libzahl_tmp_gcd_u) 0 = Result.ok 0 := by decide
    have hy : limbOrZero ((zabs (zabs (heapAfter twoPow64 (small 1 1)) libzahl_tmp_gcd_u 3)
        libzahl_tmp_gcd_v 4) libzahl_tmp_gcd_v) 0 = Result.ok 1 := by decide
    have hscan : bitScan 65 (0 ||| 1) 1 0 = (true, 0) := by decide
    rw [commonShift_succ, hx, Result.bind_ok, hy, Result.bind_ok, hscan]
    simp only [Result.bind_ok]
    have hlsb : zlsb gnuc ((zrsh (zrsh (zabs (zabs (heapAfter twoPow64 (small 1 1))
        libzahl_tmp_gcd_u 3) libzahl_tmp_gcd_v 4) libzahl_tmp_gcd_u libzahl_tmp_gcd_u 0)
        libzahl_tmp_gcd_v libzahl_tmp_gcd_v 0) libzahl_tmp_gcd_u) = Result.ok 67 := by
      cases gnuc <;> decide
    rw [hlsb, Result.bind_ok]
    have hu : ((zrsh (zrsh (zrsh (zabs (zabs (heapAfter twoPow64 (small 1 1))
        libzahl_tmp_gcd_u 3) libzahl_tmp_gcd_v 4) libzahl_tmp_gcd_u libzahl_tmp_gcd_u 0)
        libzahl_tmp_gcd_v libzahl_tmp_gcd_v 0) libzahl_tmp_gcd_u libzahl_tmp_gcd_u 67)
        libzahl_tmp_gcd_u).mag = 0 := by decide
    have hv : ((zrsh (zrsh (zrsh (zabs (zabs (heapAfter twoPow64 (small 1 1))
        libzahl_tmp_gcd_u 3) libzahl_tmp_gcd_v 4) libzahl_tmp_gcd_u libzahl_tmp_gcd_u 0)
        libzahl_tmp_gcd_v libzahl_tmp_gcd_v 0) libzahl_tmp_gcd_u libzahl_tmp_gcd_u 67)
        libzahl_tmp_gcd_v) = ⟨1, 1, 65, some ([1] ++ List.replicate 63 0 ++ [8])⟩ := by
      decide
    have hsingle : Single ((zrsh (zrsh (zrsh (zabs (zabs (heapAfter twoPow64 (small 1 1))
        libzahl_tmp_gcd_u 3) libzahl_tmp_gcd_v 4) libzahl_tmp_gcd_u libzahl_tmp_gcd_u 0)
        libzahl_tmp_gcd_v libzahl_tmp_gcd_v 0) libzahl_tmp_gcd_u libzahl_tmp_gcd_u 67)
        libzahl_tmp_gcd_v) 1 := by
      rw [hv]
      exact ⟨rfl, rfl, ⟨_, rfl⟩, by decide, by decide⟩
    rw [gcdLoop_stuck gnuc 1 (by decide) (fuel + 1) _ hu hsingle]
    rfl

/-- After the earlier call, `zgcd(a, 12 * 2^64, 9)` returns 1 in either operand order and
either preprocessor branch; the greatest common divisor is 3. -/
theorem zgcd_after_wrong_value :
    outcome (zgcd true 60 (heapAfter ⟨1, 2, 2, some [0, 12]⟩ (small 1 9)) 2 3 4) 2
      = Result.ok (1, 1, 1) ∧
    outcome (zgcd false 60 (heapAfter ⟨1, 2, 2, some [0, 12]⟩ (small 1 9)) 2 3 4) 2
      = Result.ok (1, 1, 1) ∧
    outcome (zgcd true 60 (heapAfter (small 1 9) ⟨1, 2, 2, some [0, 12]⟩) 2 3 4) 2
      = Result.ok (1, 1, 1) ∧
    Nat.gcd (Zahl.mag ⟨1, 2, 2, some [0, 12]⟩) (small 1 9).mag = 3 := by
  decide

/-! ## Claims that meet the `zlsb` defect through `zgcd` -/

/-- The main path of `zgcd` written with `zgcdBeforeLoop`. -/
theorem zgcd_main_path_beforeLoop (gnuc : Bool) (fuel : Nat) (h : Heap) (a b c : Ptr)
    (hcmp : zcmp (h b) (h c) ≠ 0) (hb : zzero (h b) = false) (hc : zzero (h c) = false) :
    zgcd gnuc fuel h a b c =
      (zgcdBeforeLoop gnuc fuel h b c).bind fun p =>
        (gcdLoop gnuc fuel p.1).bind fun r =>
          Result.ok ((zlsh r a libzahl_tmp_gcd_u p.2).set a
            (ZAHL_SET_SIGNUM ((zlsh r a libzahl_tmp_gcd_u p.2) a)
              (if (decide (zsignum
                  ((zabs (zabs h libzahl_tmp_gcd_u b) libzahl_tmp_gcd_v c) b) < 0) &&
                decide (zsignum
                  ((zabs (zabs h libzahl_tmp_gcd_u b) libzahl_tmp_gcd_v c) c) < 0)) = true
                then -1 else 1))) := by
  rw [zgcd_main_path gnuc fuel h a b c hcmp hb hc]
  unfold zgcdBeforeLoop
  simp only []
  cases commonShift fuel
      ((zabs (zabs h libzahl_tmp_gcd_u b) libzahl_tmp_gcd_v c) libzahl_tmp_gcd_u)
      ((zabs (zabs h libzahl_tmp_gcd_u b) libzahl_tmp_gcd_v c) libzahl_tmp_gcd_v) 0 0 with
  | ok s =>
    simp only [Result.bind_ok]
    cases zlsb gnuc ((zrsh (zrsh (zabs (zabs h libzahl_tmp_gcd_u b) libzahl_tmp_gcd_v c)
        libzahl_tmp_gcd_u libzahl_tmp_gcd_u s)
        libzahl_tmp_gcd_v libzahl_tmp_gcd_v s) libzahl_tmp_gcd_u) <;> rfl
  | undefined => rfl
  | timeout => rfl

/-- C13: `zgcd(a, b, c)` against `zgcd(a, c, b)` for `b = 2^64`, `c = 1` on a fresh
library state: in both orders `zlsb` reads outside a buffer, so neither call produces a
value.  For `b = 12 * 2^64`, `c = 9` with stale limbs 8 and 1 at index 64 of the buffers
of `u` and `v`, the two orders return 1 and 3. -/
theorem zgcd_orders_multi_limb :
    Canonical twoPow64 ∧ Canonical (small 1 1) ∧
    outcome (zgcd true 60 (heapOf twoPow64 (small 1 1)) 2 3 4) 2 = Result.undefined ∧
    outcome (zgcd true 60 (heapOf (small 1 1) twoPow64) 2 3 4) 2 = Result.undefined ∧
    outcome (zgcd false 60 (heapOf twoPow64 (small 1 1)) 2 3 4) 2 = Result.undefined ∧
    outcome (zgcd false 60 (heapOf (small 1 1) twoPow64) 2 3 4) 2 = Result.undefined ∧
    Canonical ⟨1, 2, 2, some [0, 12]⟩ ∧ Canonical (small 1 9) ∧
    outcome (zgcd true 60 (heapStaleBoth ⟨1, 2, 2, some [0, 12]⟩ (small 1 9)) 2 3 4) 2
      = Result.ok (1, 1, 1) ∧
    outcome (zgcd true 60 (heapStaleBoth (small 1 9) ⟨1, 2, 2, some [0, 12]⟩) 2 3 4) 2
      = Result.ok (3, 1, 1) ∧
    outcome (zgcd false 60 (heapStaleBoth ⟨1, 2, 2, some [0, 12]⟩ (small 1 9)) 2 3 4) 2
      = Result.ok (1, 1, 1) ∧
    outcome (zgcd false 60 (heapStaleBoth (small 1 9) ⟨1, 2, 2, some [0, 12]⟩) 2 3 4) 2
      = Result.ok (3, 1, 1) := by
  decide

/-- C16: `zgcd(a, 3 * 2^130, 7)`, on a fresh library state and after the earlier call:
`zlsb(u)` reads limb 128 of a buffer of 3 resp. 65 limbs, so no value, canonical or
not, is written to `a`. -/
theorem zgcd_writes_no_value :
    Canonical threeTwoPow130 ∧ Canonical (small 1 7) ∧
    outcome (zgcd true 60 (heapOf threeTwoPow130 (small 1 7)) 2 3 4) 2 = Result.undefined ∧
    outcome (zgcd false 60 (heapOf threeTwoPow130 (small 1 7)) 2 3 4) 2 = Result.undefined ∧
    outcome (zgcd true 60 (heapAfter threeTwoPow130 (small 1 7)) 2 3 4) 2
      = Result.undefined ∧
    outcome (zgcd false 60 (heapAfter threeTwoPow130 (small 1 7)) 2 3 4) 2
      = Result.undefined := by
  decide

/-- C18: the call `zgcd(a, 2^64, 1)` made after an earlier call `zgcd(a, X, 3 * X)` does
not return for any amount of fuel, in either preprocessor branch: the do-while loop runs
with `u = 0`, and `|u| + |v|` stays 1. -/
theorem zgcd_loop_does_not_end :
    Canonical twoPow64 ∧ Canonical (small 1 1) ∧
    (∀ gnuc fuel, zgcd gnuc fuel (heapAfter twoPow64 (small 1 1)) 2 3 4 = Result.timeout) ∧
    (zgcdBeforeLoop true 1 (heapAfter twoPow64 (small 1 1)) 3 4).map
      (fun p => ((p.1 libzahl_tmp_gcd_u).mag, (p.1 libzahl_tmp_gcd_v).mag))
      = Result.ok (0, 1) :=
  ⟨by decide, by decide, fun gnuc fuel => zgcd_after_never_ends gnuc fuel, by decide⟩

/-- C19: the call `zgcd(a, 16 * 2^64, 9)` made after an earlier call `zgcd(a, X, 3 * X)`:
`zlsb(u)` is called with the nonzero `u = 16 * 2^64` and returns 67 instead of 68, so the
loop body is entered with `u = 2`, which is even. -/
theorem zgcd_loop_entered_with_even_u :
    Canonical ⟨1, 2, 2, some [0, 16]⟩ ∧ Canonical (small 1 9) ∧
    (zgcdBeforeLoop true 60 (heapAfter ⟨1, 2, 2, some [0, 16]⟩ (small 1 9)) 3 4).map
      (fun p => ((p.1 libzahl_tmp_gcd_u).mag, (p.1 libzahl_tmp_gcd_u).mag % 2,
        (p.1 libzahl_tmp_gcd_v).mag, p.2)) = Result.ok (2, 0, 9, 0) ∧
    (zgcdBeforeLoop false 60 (heapAfter ⟨1, 2, 2, some [0, 16]⟩ (small 1 9)) 3 4).map
      (fun p => ((p.1 libzahl_tmp_gcd_u).mag, (p.1 libzahl_tmp_gcd_u).mag % 2,
        (p.1 libzahl_tmp_gcd_v).mag, p.2)) = Result.ok (2, 0, 9, 0) ∧
    (zgcdBeforeLoop true 60 (heapOf ⟨1, 2, 2, some [0, 16]⟩ (small 1 9)) 3 4).map
      (fun p => p.2) = Result.undefined := by
  decide

/-! ## What holds for operands of at most one limb -/

theorem value_eq_sign_mul_natAbs (z : Zahl) (hs : z.sign = 1 ∨ z.sign = -1) :
    z.value = z.sign * (z.value.natAbs : Int) := by
  unfold Zahl.value
  rcases hs with hs | hs <;> simp [hs]

/-- On canonical operands of at most one limb `zgcd` is commutative: both orders return,
with the same value. -/
theorem zgcd_single_limb_comm (gnuc : Bool) (fuel : Nat) (h : Heap) (a1 a2 b c : Ptr)
    (hbu : b ≠ libzahl_tmp_gcd_u) (hbv : b ≠ libzahl_tmp_gcd_v)
    (hcu : c ≠ libzahl_tmp_gcd_u) (hcv : c ≠ libzahl_tmp_gcd_v)
    (hb : Canonical (h b)) (hc : Canonical (h c))
    (hb1 : (h b).used ≤ 1) (hc1 : (h c).used ≤ 1)
    (hf : (h b).mag + (h c).mag < fuel) :
    ∃ r1 r2, zgcd gnuc fuel h a1 b c = Result.ok r1 ∧ zgcd gnuc fuel h a2 c b = Result.ok r2 ∧
      (r1 a1).value = (r2 a2).value := by
  obtain ⟨r1, e1, n1, s1, zb1, zc1⟩ :=
    zgcd_single_limb gnuc fuel h a1 b c hbu hbv hcu hcv hb hc hb1 hc1 hf
  obtain ⟨r2, e2, n2, s2, zc2, zb2⟩ :=
    zgcd_single_limb gnuc fuel h a2 c b hcu hcv hbu hbv hc hb hc1 hb1 (by omega)
  refine ⟨r1, r2, e1, e2, ?_⟩
  by_cases hbs : (h b).sign = 0
  · rw [zb1 hbs, zb2 hbs]
  · by_cases hcs : (h c).sign = 0
    · rw [zc1 hcs, zc2 hcs]
    · have hs1 := s1 hbs hcs
      have hs2 := s2 hcs hbs
      have hss : (r1 a1).sign = (r2 a2).sign := by
        rw [hs1, hs2]
        by_cases h1 : (h b).sign < 0 <;> by_cases h2 : (h c).sign < 0 <;> simp [h1, h2]
      have hpm : (r1 a1).sign = 1 ∨ (r1 a1).sign = -1 := by
        rw [hs1]
        by_cases h1 : (h b).sign < 0 ∧ (h c).sign < 0 <;> simp [h1]
      have e3 := value_eq_sign_mul_natAbs _ hpm
      have e4 := value_eq_sign_mul_natAbs (r2 a2) (hss ▸ hpm)
      rw [n1] at e3
      rw [n2, Nat.gcd_comm, ← hss] at e4
      rw [e3, e4]

theorem store_zero_canonical (z : Zahl) (s : Int) (hz : Valid z) :
    Canonical (store z s 0) := by
  obtain ⟨hl, hal, _, _⟩ := hz
  have hbuf : (store z s 0).buf = z.buf := by
    rw [store_buf]; rfl
  refine ⟨⟨?_, ?_, ?_, ?_⟩, Or.inr (Or.inl rfl), ⟨fun _ => rfl, fun _ => rfl⟩, ?_⟩
  · rw [hbuf]; exact hl
  · rw [hbuf]
    show max z.alloced 0 = z.buf.length
    omega
  · show 0 ≤ _
    omega
  · show 0 * 64 < 2 ^ 64
    norm_num
  · intro hpos
    exact absurd hpos (by show ¬ 0 < 0; omega)

theorem store_limb_canonical (z : Zahl) (s : Int) (m : Nat) (hz : Valid z) (h0 : 0 < m)
    (hm : m < 2 ^ 64) (hs : s = 1 ∨ s = -1) : Canonical (store z s m) := by
  obtain ⟨hl, hal, _, _⟩ := hz
  obtain ⟨h1, h2, h3⟩ := store_fields z s m h0 hm
  have hbuf : (store z s m).buf = m :: z.buf.drop 1 := by
    unfold Zahl.buf; rw [h3]; rfl
  have halloc : (store z s m).alloced = max z.alloced 1 := by
    simp [store, toLimbs_single m h0 hm]
  refine ⟨⟨?_, ?_, ?_, ?_⟩, ?_, ?_, ?_⟩
  · rw [hbuf]
    intro x hx
    rcases List.mem_cons.1 hx with hx | hx
    · rw [hx]; exact hm
    · exact hl x (List.mem_of_mem_drop hx)
  · rw [hbuf, halloc, List.length_cons, List.length_drop]
    omega
  · rw [h2, halloc]; omega
  · rw [h2]; norm_num
  · rw [h1]
    rcases hs with hs | hs
    · exact Or.inr (Or.inr hs)
    · exact Or.inl hs
  · rw [h1, h2]
    constructor
    · intro h; rcases hs with hs | hs <;> rw [hs] at h <;> omega
    · intro h; omega
  · intro _
    rw [h2, hbuf]
    show m ≠ 0
    omega

/-- The value written by `if (a != x) zset(a, x)` for a canonical `x` of at most one limb
is canonical. -/
theorem set_unless_same_canonical (h : Heap) (a x : Ptr) (hx : Canonical (h x))
    (hx1 : (h x).used ≤ 1) (hva : Valid (h a)) :
    Canonical ((if a ≠ x then zset h a x else h) a) := by
  by_cases hax : a = x
  · subst hax
    simpa using hx
  · rw [if_pos hax]
    simp only [zset, Heap.set_same]
    by_cases hs : (h x).sign = 0
    · rw [Canonical.mag_zero _ hx hs]
      exact store_zero_canonical _ _ hva
    · obtain ⟨h0, hm⟩ := Canonical.single_mag _ hx hx1 hs
      refine store_limb_canonical _ _ _ hva h0 hm ?_
      rcases hx.2.1 with h1 | h1 | h1
      · exact Or.inr h1
      · exact absurd h1 hs
      · exact Or.inl h1

/-- On canonical operands of at most one limb, with a valid destination that is not a
library temporary, `zgcd` returns and the value written to `a` is canonical. -/
theorem zgcd_single_limb_canonical (gnuc : Bool) (fuel : Nat) (h : Heap) (a b c : Ptr)
    (hau : a ≠ libzahl_tmp_gcd_u) (hav : a ≠ libzahl_tmp_gcd_v)
    (hbu : b ≠ libzahl_tmp_gcd_u) (hbv : b ≠ libzahl_tmp_gcd_v)
    (hcu : c ≠ libzahl_tmp_gcd_u) (hcv : c ≠ libzahl_tmp_gcd_v)
    (hva : Valid (h a)) (hb : Canonical (h b)) (hc : Canonical (h c))
    (hb1 : (h b).used ≤ 1) (hc1 : (h c).used ≤ 1)
    (hf : (h b).mag + (h c).mag < fuel) :
    ∃ r, zgcd gnuc fuel h a b c = Result.ok r ∧ Canonical (r a) := by
  by_cases hv : (h b).value = (h c).value
  · exact ⟨_, zgcd_of_cmp_zero gnuc fuel h a b c hv, set_unless_same_canonical h a b hb hb1 hva⟩
  · by_cases hbs : (h b).sign = 0
    · exact ⟨_, zgcd_of_zero_left gnuc fuel h a b c hv hbs,
        set_unless_same_canonical h a c hc hc1 hva⟩
    · by_cases hcs : (h c).sign = 0
      · exact ⟨_, zgcd_of_zero_right gnuc fuel h a b c hv hbs hcs,
          set_unless_same_canonical h a b hb hb1 hva⟩
      · obtain ⟨r, z, h1, h2, h3, _⟩ := zgcd_main_single gnuc fuel h a b c hbu hbv hcu hcv
          hb hc hb1 hc1 hbs hcs hv hf
        refine ⟨r, h1, ?_⟩
        obtain ⟨hB0, hBlt⟩ := Canonical.single_mag _ hb hb1 hbs
        have hG0 : 0 < Nat.gcd (h b).mag (h c).mag := Nat.gcd_pos_of_pos_left _ hB0
        have hGlt : Nat.gcd (h b).mag (h c).mag < 2 ^ 64 :=
          lt_of_le_of_lt (Nat.gcd_le_left _ hB0) hBlt
        have hne : Nat.gcd (h b).mag (h c).mag ≠ 0 := by omega
        have hrec : r a = store (h a)
            (if (h b).sign < 0 ∧ (h c).sign < 0 then -1 else 1)
            (Nat.gcd (h b).mag (h c).mag) := by
          rw [h2, h3 hau hav]
          simp [ZAHL_SET_SIGNUM, store, hne]
        rw [hrec]
        apply store_limb_canonical _ _ _ hva hG0 hGlt
        by_cases h5 : (h b).sign < 0 ∧ (h c).sign < 0 <;> simp [h5]

end Libzahl
